import Mathlib

/-!
# goBlockChain: the ledger of `block/blockchain.go`

A shallow embedding of the ledger state machine of `block/blockchain.go`
(blocks, transactions, the pending pool, proof of work, mining, balances)
together with theorems about it.

Modelling conventions.

* Pointers to transactions and blocks are replaced by their values: the
  source never writes to a `Transaction` or a `Block` after building it.
* A Go slice of transactions is an `Option (List Transaction)`; `none` is the
  nil slice, which `json.Marshal` renders differently from an empty one, so
  the block digest may tell them apart.
* `sha256.Sum256`, `json.Marshal` and `ecdsa.Verify` belong to the Go standard
  library; they are the fields of the parameter `Crypto`.
* `time.Now().UnixNano()` is an explicit argument `now`.
* A Go `int` is an `Int` in the 64-bit range; the only arithmetic the source
  does on one (`nonce += 1`) wraps around through `wrap64`.
* A finite `float32` value is the rational number it denotes; the `float32`
  operations `+=` and `-=` of the source round their exact result to the nearest
  `float32`, ties to even, and overflow to an infinity (`roundFloat32`).
* A call either returns, panics, or (for the proof-of-work search, which has no
  bound in the source) exhausts the iteration budget it was given: `Run`.
* The mutex of `Mining` is not modelled: calls are taken one at a time.
-/

namespace GoBlockchain

/-! ## Results of calls -/

/-- Outcome of a call: a returned value, a run-time panic, or a search that
used up its iteration budget before returning. -/
inductive Run (α : Type) where
  | ok (a : α)
  | panic
  | outOfFuel
deriving DecidableEq

/-! ## Constants -/

/-- Constant `MINING_DIFFICULTY` of the source. -/
def MINING_DIFFICULTY : Int := 3

/-- Constant `MINING_SENDER` of the source. -/
def MINING_SENDER : String := "THE BLOCKCHAIN"

/-- Constant `MINING_REWARD` of the source (`1.0`). -/
def MINING_REWARD : ℚ := 1

/-- Constant `MINING_TIMER_SEC` of the source. -/
def MINING_TIMER_SEC : Nat := 20

/-! ## Data model -/

/-- A `[32]byte` array. -/
structure Digest where
  bytes : List (Fin 256)
  size_eq : bytes.length = 32
deriving DecidableEq

/-- The zero value of `[32]byte`. -/
def Digest.zero : Digest := ⟨List.replicate 32 0, by simp⟩

/-- Struct `Transaction` of the source. -/
structure Transaction where
  senderBlockchainAddress : String
  recipientBlockchainAddress : String
  value : ℚ
deriving DecidableEq

/-- A Go slice `[]*Transaction`; `none` is the nil slice. -/
abbrev TxSlice : Type := Option (List Transaction)

/-- The entries of a slice, in order (what `range` visits). -/
def TxSlice.elems : TxSlice → List Transaction
  | none => []
  | some l => l

/-- Go `len`. -/
def TxSlice.len (s : TxSlice) : Nat := s.elems.length

/-- Go `append(s, t)`: the result is never nil. -/
def TxSlice.push (s : TxSlice) (t : Transaction) : TxSlice := some (s.elems ++ [t])

/-- Struct `Block` of the source. -/
structure Block where
  Timestamp : Int
  Nonce : Int
  PreviousHash : Digest
  Transactions : TxSlice
deriving DecidableEq

/-- Struct `Blockchain` of the source, without its mutex. -/
structure Blockchain where
  transactionPool : TxSlice
  chain : List Block
  blockchainAddress : String
  port : Fin 65536
deriving DecidableEq

/-- An `ecdsa.PublicKey` (on a fixed curve). -/
structure PublicKey where
  X : Int
  Y : Int
deriving DecidableEq

/-- Modelled from the spec: the type `utils.Signature` is declared in the
package `goblockchain/utils`, which is not among the sources; the source reads
its two fields `R` and `S` (each a `*big.Int`, `none` when nil) and hands them
to `ecdsa.Verify`. -/
structure Signature where
  R : Option Int
  S : Option Int
deriving DecidableEq

/-- The standard-library functions the ledger calls. -/
structure Crypto where
  /-- The digest `sha256.Sum256(json.Marshal(b))` of a block. -/
  blockSum : Block → Digest
  /-- The digest `sha256.Sum256(json.Marshal(t))` of a transaction. -/
  txSum : Transaction → Digest
  /-- The call `ecdsa.Verify(pub, hash, r, s)`. -/
  ecdsaVerify : Option PublicKey → Digest → Option Int → Option Int → Run Bool

/-! ## Machine integers and hexadecimal rendering -/

/-- Two's-complement wrap-around of a 64-bit Go `int`. -/
def wrap64 (x : Int) : Int := (x + 2 ^ 63) % 2 ^ 64 - 2 ^ 63

/-- One lower-case hexadecimal digit. -/
def hexDigit (n : Nat) : Char :=
  match n with
  | 0 => '0' | 1 => '1' | 2 => '2' | 3 => '3'
  | 4 => '4' | 5 => '5' | 6 => '6' | 7 => '7'
  | 8 => '8' | 9 => '9' | 10 => 'a' | 11 => 'b'
  | 12 => 'c' | 13 => 'd' | 14 => 'e' | _ => 'f'

/-- The two hexadecimal digits of a byte. -/
def hexByte (b : Fin 256) : List Char := [hexDigit (b.val / 16), hexDigit (b.val % 16)]

/-- The string `fmt.Sprintf("%x", d)` for a byte array `d`, as its characters. -/
def hexString (d : Digest) : List Char := d.bytes.flatMap hexByte

/-! ## `float32` arithmetic -/

/-- The value of a `float32` accumulator: a finite value, given as the rational
number it denotes, or an infinity. No NaN arises in the source: every operand
added to or subtracted from an accumulator is a finite transaction value. -/
inductive Float32 where
  | finite (q : ℚ)
  | posInf
  | negInf
deriving DecidableEq

/-- For a positive ratio `a / d` below `2 ^ 128`, the number `k` such that the
binary exponent of `a / d` is `k - 126`, and `0` when `a / d` is below `2 ^ (-126)`
(the subnormal range): the greatest `k` up to the bound with
`2 ^ (k - 126) <= a / d`. -/
def binadeIndex (a d : Nat) : Nat → Nat
  | 0 => 0
  | k + 1 => if d * 2 ^ (k + 1) ≤ a * 2 ^ 126 then k + 1 else binadeIndex a d k

/-- Rounding of `a / d`, with the given sign, to the nearest `float32`, ties to
even: the spacing of `float32` values around `a / d` is `2 ^ (k - 149)`; the
ratio is rounded to a multiple `m` of that spacing, and a result of `2 ^ 128` or
more is an infinity. -/
def roundRatio (neg : Bool) (a d : Nat) : Float32 :=
  let k := binadeIndex a d 253
  let n := a * 2 ^ (149 - k)
  let D := d * 2 ^ (k - 149)
  let fl := n / D
  let rem := n % D
  let m := if 2 * rem < D then fl else if D < 2 * rem then fl + 1
    else if fl % 2 = 0 then fl else fl + 1
  if 2 ^ 128 ≤ m * 2 ^ (k - 149) then (if neg then Float32.negInf else Float32.posInf)
  else
    let mag : ℚ := mkRat (m * 2 ^ (k - 149)) (2 ^ (149 - k))
    Float32.finite (if neg then -mag else mag)

/-- Rounding of an exact result to `float32` (round to nearest, ties to even). -/
def roundFloat32 (x : ℚ) : Float32 := roundRatio (decide (x.num < 0)) x.num.natAbs x.den

/-- The `float32` operation `total += value`. -/
def Float32.add (total : Float32) (value : ℚ) : Float32 :=
  match total with
  | Float32.finite q => roundFloat32 (q + value)
  | Float32.posInf => Float32.posInf
  | Float32.negInf => Float32.negInf

/-- The `float32` operation `total -= value`. -/
def Float32.sub (total : Float32) (value : ℚ) : Float32 :=
  match total with
  | Float32.finite q => roundFloat32 (q - value)
  | Float32.posInf => Float32.posInf
  | Float32.negInf => Float32.negInf

/-! ## Operations of the source -/

/-- Method `Block.Hash`. -/
def Block.Hash (c : Crypto) (b : Block) : Digest := c.blockSum b

/-- Function `NewBlock`; `now` is `time.Now().UnixNano()`. -/
def NewBlock (now : Int) (nonce : Int) (previousHash : Digest) (transactions : TxSlice) : Block :=
  { Timestamp := now, Nonce := nonce, PreviousHash := previousHash, Transactions := transactions }

/-- Function `NewTransaction`. -/
def NewTransaction (sender : String) (recipient : String) (value : ℚ) : Transaction :=
  { senderBlockchainAddress := sender, recipientBlockchainAddress := recipient, value := value }

/-- Method `Blockchain.CreateBlock`: the returned block and the ledger afterwards. -/
def CreateBlock (now : Int) (bc : Blockchain) (nonce : Int) (previousHash : Digest) :
    Block × Blockchain :=
  let b := NewBlock now nonce previousHash bc.transactionPool
  (b, { bc with chain := bc.chain ++ [b], transactionPool := some [] })

/-- The zero value `Block{}`. -/
def Block.zero : Block :=
  { Timestamp := 0, Nonce := 0, PreviousHash := Digest.zero, Transactions := none }

/-- Function `NewBlockchain`. -/
def NewBlockchain (c : Crypto) (now : Int) (blockchainAddress : String) (port : Fin 65536) :
    Blockchain :=
  let b := Block.zero
  let bc : Blockchain :=
    { transactionPool := none, chain := [], blockchainAddress := blockchainAddress, port := 0 }
  let bc1 := (CreateBlock now bc 0 (b.Hash c)).2
  { bc1 with port := port }

/-- Method `Blockchain.VerifyTransactionSignature`: reading `s.R` panics when
`s` is nil. -/
def VerifyTransactionSignature (c : Crypto) (senderPublicKey : Option PublicKey)
    (s : Option Signature) (t : Transaction) : Run Bool :=
  let h := c.txSum t
  match s with
  | none => Run.panic
  | some sig => c.ecdsaVerify senderPublicKey h sig.R sig.S

/-- Method `Blockchain.AddTransaction`: the returned flag and the ledger afterwards. -/
def AddTransaction (c : Crypto) (bc : Blockchain) (sender : String) (recipient : String)
    (value : ℚ) (senderPublicKey : Option PublicKey) (s : Option Signature) :
    Run (Bool × Blockchain) :=
  let t := NewTransaction sender recipient value
  if sender = MINING_SENDER then
    Run.ok (true, { bc with transactionPool := bc.transactionPool.push t })
  else
    match VerifyTransactionSignature c senderPublicKey s t with
    | Run.ok true => Run.ok (true, { bc with transactionPool := bc.transactionPool.push t })
    | Run.ok false => Run.ok (false, bc)
    | Run.panic => Run.panic
    | Run.outOfFuel => Run.outOfFuel

/-- Method `Blockchain.CopyTransactionPool`. -/
def CopyTransactionPool (bc : Blockchain) : TxSlice :=
  some (bc.transactionPool.elems.map fun t =>
    NewTransaction t.senderBlockchainAddress t.recipientBlockchainAddress t.value)

/-- Method `Blockchain.ValidProof`: `strings.Repeat` panics on a negative count
and the slice expression `guessBlockHashStr[:difficulty]` panics when
`difficulty` exceeds the length of the string. -/
def ValidProof (c : Crypto) (nonce : Int) (previousHash : Digest) (transactions : TxSlice)
    (difficulty : Int) : Run Bool :=
  if difficulty < 0 then Run.panic
  else
    let zeros := List.replicate difficulty.toNat '0'
    let guessBlock : Block :=
      { Timestamp := 0, Nonce := nonce, PreviousHash := previousHash,
        Transactions := transactions }
    let guessBlockHashStr := hexString (guessBlock.Hash c)
    if guessBlockHashStr.length < difficulty.toNat then Run.panic
    else Run.ok (decide (guessBlockHashStr.take difficulty.toNat = zeros))

/-- Method `Blockchain.LastBlock`: indexing an empty chain panics. -/
def LastBlock (bc : Blockchain) : Run Block :=
  match bc.chain.getLast? with
  | none => Run.panic
  | some b => Run.ok b

/-- The loop of `ProofOfWork`, given at most `fuel` evaluations of its condition. -/
def powLoop (c : Crypto) (previousHash : Digest) (transaction : TxSlice) :
    Nat → Int → Run Int
  | 0, _ => Run.outOfFuel
  | fuel + 1, nonce =>
    match ValidProof c nonce previousHash transaction MINING_DIFFICULTY with
    | Run.ok true => Run.ok nonce
    | Run.ok false => powLoop c previousHash transaction fuel (wrap64 (nonce + 1))
    | Run.panic => Run.panic
    | Run.outOfFuel => Run.outOfFuel

/-- Method `Blockchain.ProofOfWork`, with an iteration budget for its loop. -/
def ProofOfWork (c : Crypto) (fuel : Nat) (bc : Blockchain) : Run Int :=
  let transaction := CopyTransactionPool bc
  match LastBlock bc with
  | Run.ok lb => powLoop c (lb.Hash c) transaction fuel 0
  | Run.panic => Run.panic
  | Run.outOfFuel => Run.outOfFuel

/-- Method `Blockchain.Mining`: the returned flag and the ledger afterwards. -/
def Mining (c : Crypto) (fuel : Nat) (now : Int) (bc : Blockchain) : Run (Bool × Blockchain) :=
  if bc.transactionPool.len = 0 then Run.ok (false, bc)
  else
    match AddTransaction c bc MINING_SENDER bc.blockchainAddress MINING_REWARD none none with
    | Run.ok (_, bc1) =>
      match ProofOfWork c fuel bc1 with
      | Run.ok nonce =>
        match LastBlock bc1 with
        | Run.ok lb => Run.ok (true, (CreateBlock now bc1 nonce (lb.Hash c)).2)
        | Run.panic => Run.panic
        | Run.outOfFuel => Run.outOfFuel
      | Run.panic => Run.panic
      | Run.outOfFuel => Run.outOfFuel
    | Run.panic => Run.panic
    | Run.outOfFuel => Run.outOfFuel

/-- Method `Blockchain.CalculateTotalAmount`: the accumulator `totalAmount` is a
`float32`, and each `+=` and `-=` rounds. -/
def CalculateTotalAmount (bc : Blockchain) (blockchainAddress : String) : Float32 :=
  bc.chain.foldl (fun totalAmount b =>
    b.Transactions.elems.foldl (fun total t =>
      let value := t.value
      let total1 :=
        if blockchainAddress = t.recipientBlockchainAddress then total.add value else total
      if blockchainAddress = t.senderBlockchainAddress then total1.sub value else total1)
      totalAmount) (Float32.finite 0)

/-! ## A small instance of the library functions, for concrete runs -/

/-- A digest whose first byte is `b` and whose other bytes are zero. -/
def Digest.ofByte (b : Fin 256) : Digest := ⟨b :: List.replicate 31 0, by simp⟩

/-- A stand-in for the library functions: the digest of a block has leading
byte `255` for nonces other than `2` and is zero at nonce `2`; signatures are
accepted exactly when `R` is `1`. -/
def sampleCrypto : Crypto where
  blockSum := fun b => if b.Nonce = 2 then Digest.zero else Digest.ofByte 255
  txSum := fun _ => Digest.zero
  ecdsaVerify := fun pk _ r _ =>
    match pk with
    | none => Run.panic
    | some _ => Run.ok (decide (r = some 1))

/-- The ledger a fresh node starts from. -/
def sampleGenesis : Blockchain := NewBlockchain sampleCrypto 7 "miner" 5000

/-- The sample ledger with one pending transfer. -/
def samplePending : Blockchain :=
  { sampleGenesis with transactionPool := some [NewTransaction "A" "B" 5] }

/-- The sample ledger after the pending transfer has been mined at time `9`. -/
def sampleMined : Blockchain :=
  { samplePending with
    transactionPool := some []
    chain := sampleGenesis.chain ++
      [{ Timestamp := 9, Nonce := 2, PreviousHash := Digest.ofByte 255,
         Transactions := some [NewTransaction "A" "B" 5,
           NewTransaction MINING_SENDER "miner" MINING_REWARD] }] }

/-! ## Reachable ledgers -/

/-- The ledger on which `Mining` runs `ProofOfWork` and `CreateBlock`: `bc` once
the call `bc.AddTransaction(MINING_SENDER, bc.blockchainAddress, MINING_REWARD, nil, nil)`
has returned. -/
def withReward (bc : Blockchain) : Blockchain :=
  { bc with
    transactionPool :=
      bc.transactionPool.push (NewTransaction MINING_SENDER bc.blockchainAddress MINING_REWARD) }

/-- Ledgers obtained from `NewBlockchain` by calls of `AddTransaction` and
`Mining` that return. -/
inductive Reachable (c : Crypto) : Blockchain → Prop where
  | init (now : Int) (blockchainAddress : String) (port : Fin 65536) :
      Reachable c (NewBlockchain c now blockchainAddress port)
  | addTransaction {bc : Blockchain} (sender recipient : String) (value : ℚ)
      (senderPublicKey : Option PublicKey) (s : Option Signature) (r : Bool)
      (bc' : Blockchain) :
      Reachable c bc →
      AddTransaction c bc sender recipient value senderPublicKey s = Run.ok (r, bc') →
      Reachable c bc'
  | mining {bc : Blockchain} (fuel : Nat) (now : Int) (r : Bool) (bc' : Blockchain) :
      Reachable c bc →
      Mining c fuel now bc = Run.ok (r, bc') →
      Reachable c bc'

/-- Every block after the first stores the hash of the block just before it. -/
def HashLinked (c : Crypto) (chain : List Block) : Prop :=
  ∀ (i : Nat) (p b : Block), chain[i]? = some p → chain[i + 1]? = some b →
    b.PreviousHash = p.Hash c

/-! ## Notions the specification is phrased in -/

/-- The number of leading `'0'` characters of a string. -/
def leadingZeros (s : List Char) : Nat := (s.takeWhile fun ch => decide (ch = '0')).length

/-- All transactions held in the blocks of the chain, block after block. -/
def sealedTransactions (bc : Blockchain) : List Transaction :=
  bc.chain.flatMap fun b => b.Transactions.elems

/-- The sum of the values of the listed transactions whose recipient is `a`. -/
def receivedTotal (txs : List Transaction) (a : String) : ℚ :=
  ((txs.filter fun t => decide (t.recipientBlockchainAddress = a)).map fun t => t.value).sum

/-- The sum of the values of the listed transactions whose sender is `a`. -/
def sentTotal (txs : List Transaction) (a : String) : ℚ :=
  ((txs.filter fun t => decide (t.senderBlockchainAddress = a)).map fun t => t.value).sum

/-- The reward transaction paid to `a`. -/
def rewardTo (a : String) : Transaction :=
  NewTransaction MINING_SENDER a MINING_REWARD

/-- A ledger whose own address is `MINING_SENDER`, after one block has been mined. -/
def selfMinedLedger : Blockchain :=
  { transactionPool := some []
    chain := (NewBlockchain sampleCrypto 7 MINING_SENDER 5000).chain ++
      [{ Timestamp := 9, Nonce := 2, PreviousHash := Digest.ofByte 255,
         Transactions := some [NewTransaction "A" "B" 5,
           NewTransaction MINING_SENDER MINING_SENDER MINING_REWARD] }]
    blockchainAddress := MINING_SENDER
    port := 5000 }

/-- A ledger whose blocks hold the transfers `A -> B 5` and `B -> C 3` and the
reward of the miner. -/
def transferLedger : Blockchain :=
  { sampleGenesis with
    transactionPool := some []
    chain := sampleGenesis.chain ++
      [{ Timestamp := 9, Nonce := 2, PreviousHash := Digest.ofByte 255,
         Transactions := some [NewTransaction "A" "B" 5, NewTransaction "B" "C" 3,
           NewTransaction MINING_SENDER "miner" MINING_REWARD] }] }

/-! ## Further reachability relations and sample ledgers -/

/-- Ledgers obtained from `NewBlockchain` by calls of `AddTransaction`,
`CreateBlock` and `Mining` that return. -/
inductive ReachableWithCreateBlock (c : Crypto) : Blockchain → Prop where
  | init (now : Int) (blockchainAddress : String) (port : Fin 65536) :
      ReachableWithCreateBlock c (NewBlockchain c now blockchainAddress port)
  | addTransaction {bc : Blockchain} (sender recipient : String) (value : ℚ)
      (senderPublicKey : Option PublicKey) (s : Option Signature) (r : Bool)
      (bc' : Blockchain) :
      ReachableWithCreateBlock c bc →
      AddTransaction c bc sender recipient value senderPublicKey s = Run.ok (r, bc') →
      ReachableWithCreateBlock c bc'
  | createBlock {bc : Blockchain} (now : Int) (nonce : Int) (previousHash : Digest) :
      ReachableWithCreateBlock c bc →
      ReachableWithCreateBlock c (CreateBlock now bc nonce previousHash).2
  | mining {bc : Blockchain} (fuel : Nat) (now : Int) (r : Bool) (bc' : Blockchain) :
      ReachableWithCreateBlock c bc →
      Mining c fuel now bc = Run.ok (r, bc') →
      ReachableWithCreateBlock c bc'

/-- Ledgers obtained from `NewBlockchain` by calls of `Mining` and by calls of
`AddTransaction` whose sender, recipient and value satisfy `allowed`; the index
counts the calls of `Mining` that returned `true`, that is the blocks sealed by
`Mining`. -/
inductive ReachableVia (c : Crypto) (allowed : String → String → ℚ → Prop) :
    Nat → Blockchain → Prop where
  | init (now : Int) (blockchainAddress : String) (port : Fin 65536) :
      ReachableVia c allowed 0 (NewBlockchain c now blockchainAddress port)
  | addTransaction {k : Nat} {bc : Blockchain} (sender recipient : String) (value : ℚ)
      (senderPublicKey : Option PublicKey) (s : Option Signature) (r : Bool)
      (bc' : Blockchain) :
      allowed sender recipient value →
      ReachableVia c allowed k bc →
      AddTransaction c bc sender recipient value senderPublicKey s = Run.ok (r, bc') →
      ReachableVia c allowed k bc'
  | mined {k : Nat} {bc : Blockchain} (fuel : Nat) (now : Int) (bc' : Blockchain) :
      ReachableVia c allowed k bc →
      Mining c fuel now bc = Run.ok (true, bc') →
      ReachableVia c allowed (k + 1) bc'
  | idle {k : Nat} {bc : Blockchain} (fuel : Nat) (now : Int) (bc' : Blockchain) :
      ReachableVia c allowed k bc →
      Mining c fuel now bc = Run.ok (false, bc') →
      ReachableVia c allowed k bc'

/-- The sample ledger after `AddTransaction(MINING_SENDER, "X", 100, nil, nil)`. -/
def mintPending : Blockchain :=
  { sampleGenesis with transactionPool := some [NewTransaction MINING_SENDER "X" 100] }

/-- The ledger `mintPending` after `Mining` at time `9`. -/
def mintMined : Blockchain :=
  { sampleGenesis with
    transactionPool := some []
    chain := sampleGenesis.chain ++
      [{ Timestamp := 9, Nonce := 2, PreviousHash := Digest.ofByte 255,
         Transactions := some [NewTransaction MINING_SENDER "X" 100,
           NewTransaction MINING_SENDER "miner" MINING_REWARD] }] }

/-- The sample ledger after a signed transfer `A -> MINING_SENDER 5`. -/
def burnPending : Blockchain :=
  { sampleGenesis with transactionPool := some [NewTransaction "A" MINING_SENDER 5] }

/-- The ledger `burnPending` after `Mining` at time `9`. -/
def burnMined : Blockchain :=
  { sampleGenesis with
    transactionPool := some []
    chain := sampleGenesis.chain ++
      [{ Timestamp := 9, Nonce := 2, PreviousHash := Digest.ofByte 255,
         Transactions := some [NewTransaction "A" MINING_SENDER 5,
           NewTransaction MINING_SENDER "miner" MINING_REWARD] }] }

/-- The sample ledger after `AddTransaction(MINING_SENDER, "X", -5, nil, nil)`. -/
def negativePending : Blockchain :=
  { sampleGenesis with transactionPool := some [NewTransaction MINING_SENDER "X" (-5)] }

/-- A stand-in for the library functions whose block digest depends on the
timestamp: it is zero for timestamp `0` and nonce `2` and has leading byte `255`
otherwise. -/
def timedCrypto : Crypto where
  blockSum := fun b => if b.Timestamp = 0 ∧ b.Nonce = 2 then Digest.zero else Digest.ofByte 255
  txSum := fun _ => Digest.zero
  ecdsaVerify := fun pk _ r _ =>
    match pk with
    | none => Run.panic
    | some _ => Run.ok (decide (r = some 1))

/-- A ledger with one pending transfer, for the library stand-in `timedCrypto`. -/
def timedPending : Blockchain :=
  { NewBlockchain timedCrypto 7 "miner" 5000 with
    transactionPool := some [NewTransaction "A" "B" 5] }

/-- The block `Mining` appends to `timedPending` at time `9`. -/
def timedBlock : Block :=
  { Timestamp := 9, Nonce := 2, PreviousHash := Digest.ofByte 255,
    Transactions := some [NewTransaction "A" "B" 5,
      NewTransaction MINING_SENDER "miner" MINING_REWARD] }

/-- The ledger `timedPending` after `Mining` at time `9`. -/
def timedMined : Blockchain :=
  { timedPending with
    transactionPool := some []
    chain := timedPending.chain ++ [timedBlock] }

/-! ## Exact balances and further sample data -/

/-- The body of the inner loop of `CalculateTotalAmount`, for one transaction. -/
def balanceStep (a : String) (total : Float32) (t : Transaction) : Float32 :=
  let value := t.value
  let total1 := if a = t.recipientBlockchainAddress then total.add value else total
  if a = t.senderBlockchainAddress then total1.sub value else total1

/-- The body of the inner loop of `CalculateTotalAmount` in exact arithmetic. -/
def exactStep (a : String) (total : ℚ) (t : Transaction) : ℚ :=
  let total1 := if a = t.recipientBlockchainAddress then total + t.value else total
  if a = t.senderBlockchainAddress then total1 - t.value else total1

/-- The values are taken as exact numbers: starting from the exact total `total`,
no `+=` and no `-=` that `CalculateTotalAmount` performs for the address `a` on
the listed transactions rounds, each exact result being a `float32` already. -/
def noRounding (a : String) : ℚ → List Transaction → Bool
  | _, [] => true
  | total, t :: ts =>
    let total1 := if a = t.recipientBlockchainAddress then total + t.value else total
    (if a = t.recipientBlockchainAddress then
        decide (roundFloat32 (total + t.value) = Float32.finite (total + t.value))
      else true) &&
    (if a = t.senderBlockchainAddress then
        decide (roundFloat32 (total1 - t.value) = Float32.finite (total1 - t.value))
      else true) &&
    noRounding a (exactStep a total t) ts

/-- The sample ledger after a signed transfer `A -> miner 16777216` (that is
`2 ^ 24`). -/
def largePending : Blockchain :=
  { sampleGenesis with transactionPool := some [NewTransaction "A" "miner" 16777216] }

/-- The ledger `largePending` after `Mining` at time `9`. -/
def largeMined : Blockchain :=
  { sampleGenesis with
    transactionPool := some []
    chain := sampleGenesis.chain ++
      [{ Timestamp := 9, Nonce := 2, PreviousHash := Digest.ofByte 255,
         Transactions := some [NewTransaction "A" "miner" 16777216,
           NewTransaction MINING_SENDER "miner" MINING_REWARD] }] }

/-! ## Basic facts about the operations -/

theorem TxSlice.elems_push (s : TxSlice) (t : Transaction) :
    (s.push t).elems = s.elems ++ [t] := rfl

theorem TxSlice.len_push (s : TxSlice) (t : Transaction) :
    (s.push t).len = s.len + 1 := by
  simp [TxSlice.len, TxSlice.push, TxSlice.elems]

theorem AddTransaction_mining_sender (c : Crypto) (bc : Blockchain) (recipient : String)
    (value : ℚ) (senderPublicKey : Option PublicKey) (s : Option Signature) :
    AddTransaction c bc MINING_SENDER recipient value senderPublicKey s =
      Run.ok (true, { bc with
        transactionPool := bc.transactionPool.push (NewTransaction MINING_SENDER recipient value) }) := by
  simp [AddTransaction]

theorem AddTransaction_reward (c : Crypto) (bc : Blockchain) :
    AddTransaction c bc MINING_SENDER bc.blockchainAddress MINING_REWARD none none =
      Run.ok (true, withReward bc) :=
  AddTransaction_mining_sender c bc bc.blockchainAddress MINING_REWARD none none

theorem AddTransaction_chain (c : Crypto) (bc bc' : Blockchain) (sender recipient : String)
    (value : ℚ) (senderPublicKey : Option PublicKey) (s : Option Signature) (r : Bool)
    (h : AddTransaction c bc sender recipient value senderPublicKey s = Run.ok (r, bc')) :
    bc'.chain = bc.chain := by
  unfold AddTransaction at h
  by_cases hs : sender = MINING_SENDER
  · simp only [if_pos hs] at h
    cases h; rfl
  · simp only [if_neg hs] at h
    cases hv : VerifyTransactionSignature c senderPublicKey s
        (NewTransaction sender recipient value) with
    | ok b =>
      cases b
      · simp only [hv] at h
        cases h; rfl
      · simp only [hv] at h
        cases h; rfl
    | panic => simp [hv] at h
    | outOfFuel => simp [hv] at h

theorem LastBlock_of_ProofOfWork (c : Crypto) (fuel : Nat) (bc : Blockchain) (nonce : Int)
    (h : ProofOfWork c fuel bc = Run.ok nonce) :
    ∃ lb, bc.chain.getLast? = some lb ∧ LastBlock bc = Run.ok lb := by
  unfold ProofOfWork at h
  unfold LastBlock at h ⊢
  cases hl : bc.chain.getLast? with
  | none => simp [hl] at h
  | some lb => exact ⟨lb, rfl, rfl⟩

/-- What `Mining` does on a non-empty pool when its proof-of-work search returns. -/
theorem Mining_eq_of_ProofOfWork (c : Crypto) (fuel : Nat) (now : Int) (bc : Blockchain)
    (nonce : Int) (hpool : bc.transactionPool.len ≠ 0)
    (hpow : ProofOfWork c fuel (withReward bc) = Run.ok nonce) :
    ∃ tip, bc.chain.getLast? = some tip ∧
      Mining c fuel now bc =
        Run.ok (true, (CreateBlock now (withReward bc) nonce (tip.Hash c)).2) := by
  obtain ⟨lb, hlb, hLast⟩ := LastBlock_of_ProofOfWork c fuel (withReward bc) nonce hpow
  refine ⟨lb, hlb, ?_⟩
  unfold Mining
  rw [if_neg hpool, AddTransaction_reward]
  simp only [hpow, hLast]

/-- Every `true` result of `Mining` comes from a returning proof-of-work search
on a non-empty pool. -/
theorem Mining_true_inv (c : Crypto) (fuel : Nat) (now : Int) (bc bc' : Blockchain)
    (h : Mining c fuel now bc = Run.ok (true, bc')) :
    bc.transactionPool.len ≠ 0 ∧
      ∃ nonce tip, ProofOfWork c fuel (withReward bc) = Run.ok nonce ∧
        bc.chain.getLast? = some tip ∧
        bc' = (CreateBlock now (withReward bc) nonce (tip.Hash c)).2 := by
  by_cases hpool : bc.transactionPool.len = 0
  · simp [Mining, hpool] at h
  · refine ⟨hpool, ?_⟩
    cases hpow : ProofOfWork c fuel (withReward bc) with
    | ok nonce =>
      obtain ⟨tip, htip, hM⟩ := Mining_eq_of_ProofOfWork c fuel now bc nonce hpool hpow
      rw [hM] at h
      refine ⟨nonce, tip, rfl, htip, ?_⟩
      injection h with h
      injection h with _ h
      exact h.symm
    | panic =>
      unfold Mining at h
      rw [if_neg hpool, AddTransaction_reward] at h
      simp [hpow] at h
    | outOfFuel =>
      unfold Mining at h
      rw [if_neg hpool, AddTransaction_reward] at h
      simp [hpow] at h

/-- A `false` result of `Mining` leaves the ledger as it was. -/
theorem Mining_false_inv (c : Crypto) (fuel : Nat) (now : Int) (bc bc' : Blockchain)
    (h : Mining c fuel now bc = Run.ok (false, bc')) : bc' = bc := by
  by_cases hpool : bc.transactionPool.len = 0
  · simp [Mining, hpool] at h
    exact h.symm
  · unfold Mining at h
    rw [if_neg hpool, AddTransaction_reward] at h
    simp only at h
    split at h
    · split at h
      · cases h
      · cases h
      · cases h
    · cases h
    · cases h

/-! ## Hash chaining -/

theorem HashLinked_append (c : Crypto) (chain : List Block) (tip b : Block)
    (hl : HashLinked c chain) (htip : chain.getLast? = some tip)
    (hb : b.PreviousHash = tip.Hash c) : HashLinked c (chain ++ [b]) := by
  intro i p q hp hq
  have hlen : i + 1 < (chain ++ [b]).length := by
    rcases Nat.lt_or_ge (i + 1) (chain ++ [b]).length with h | h
    · exact h
    · rw [List.getElem?_eq_none h] at hq
      cases hq
  rw [List.length_append, List.length_singleton] at hlen
  have hi : i < chain.length := by omega
  rw [List.getElem?_append_left hi] at hp
  rcases Nat.lt_or_ge (i + 1) chain.length with h | h
  · rw [List.getElem?_append_left h] at hq
    exact hl i p q hp hq
  · have hie : i = chain.length - 1 := by omega
    have hq' : (chain ++ [b])[i + 1]? = some b := by
      have : i + 1 = chain.length := by omega
      rw [this]
      simp
    rw [hq'] at hq
    cases hq
    rw [List.getLast?_eq_getElem?, ← hie, hp] at htip
    cases htip
    exact hb

theorem HashLinked_NewBlockchain (c : Crypto) (now : Int) (blockchainAddress : String)
    (port : Fin 65536) : HashLinked c (NewBlockchain c now blockchainAddress port).chain := by
  intro i p b _ hb
  simp [NewBlockchain, CreateBlock] at hb

theorem CreateBlock_chain (now : Int) (bc : Blockchain) (nonce : Int) (previousHash : Digest) :
    (CreateBlock now bc nonce previousHash).2.chain =
      bc.chain ++ [NewBlock now nonce previousHash bc.transactionPool] := rfl

theorem HashLinked_of_Reachable (c : Crypto) (bc : Blockchain) (h : Reachable c bc) :
    HashLinked c bc.chain := by
  induction h with
  | init now blockchainAddress port => exact HashLinked_NewBlockchain c now blockchainAddress port
  | addTransaction sender recipient value senderPublicKey s r bc' _ hadd ih =>
    rw [AddTransaction_chain c _ bc' sender recipient value senderPublicKey s r hadd]
    exact ih
  | @mining bc0 fuel now r bc' _ hmine ih =>
    cases r with
    | false =>
      rw [Mining_false_inv c fuel now bc0 bc' hmine]
      exact ih
    | true =>
      obtain ⟨_, nonce, tip, _, htip, hbc'⟩ := Mining_true_inv c fuel now bc0 bc' hmine
      rw [hbc', CreateBlock_chain]
      exact HashLinked_append c _ tip _ ih htip rfl

/-! ## Claims about `Mining` and `AddTransaction` -/

/-- C1: in every ledger reachable from `NewBlockchain` by calls of
`AddTransaction` and `Mining` that return, every block at an index `i + 1` of the
chain stores as `PreviousHash` the hash of the block at index `i`; and when
`Mining` returns `true` on such a ledger the chain grows by one block whose
`PreviousHash` is the hash of the block that was last before the call. -/
theorem reachable_chain_hash_linked (c : Crypto) (bc : Blockchain) (h : Reachable c bc) :
    (∀ (i : Nat) (p b : Block), bc.chain[i]? = some p → bc.chain[i + 1]? = some b →
        b.PreviousHash = p.Hash c) ∧
    (∀ (fuel : Nat) (now : Int) (bc' : Blockchain),
        Mining c fuel now bc = Run.ok (true, bc') →
        ∃ tip b, bc.chain.getLast? = some tip ∧ bc'.chain = bc.chain ++ [b] ∧
          b.PreviousHash = tip.Hash c) := by
  refine ⟨HashLinked_of_Reachable c bc h, ?_⟩
  intro fuel now bc' hmine
  obtain ⟨_, nonce, tip, _, htip, hbc'⟩ := Mining_true_inv c fuel now bc bc' hmine
  refine ⟨tip, NewBlock now nonce (tip.Hash c) (withReward bc).transactionPool, htip, ?_, rfl⟩
  rw [hbc', CreateBlock_chain]
  rfl

theorem sampleMined_reachable : Reachable sampleCrypto sampleMined :=
  Reachable.mining 5 9 true sampleMined
    (Reachable.addTransaction "A" "B" 5 (some ⟨1, 1⟩) (some ⟨some 1, some 1⟩) true
      samplePending (Reachable.init 7 "miner" 5000) (by decide))
    (by decide)

/-- Witness for C1: the sample ledger with one mined block is reachable, so its
chain is hash-linked. -/
theorem reachable_chain_hash_linked_witness :
    Reachable sampleCrypto sampleMined ∧
    ((∀ (i : Nat) (p b : Block), sampleMined.chain[i]? = some p →
        sampleMined.chain[i + 1]? = some b → b.PreviousHash = p.Hash sampleCrypto) ∧
    (∀ (fuel : Nat) (now : Int) (bc' : Blockchain),
        Mining sampleCrypto fuel now sampleMined = Run.ok (true, bc') →
        ∃ tip b, sampleMined.chain.getLast? = some tip ∧
          bc'.chain = sampleMined.chain ++ [b] ∧ b.PreviousHash = tip.Hash sampleCrypto)) :=
  ⟨sampleMined_reachable, reachable_chain_hash_linked sampleCrypto sampleMined sampleMined_reachable⟩

/-- C2: on a ledger whose pool is not empty, if the proof-of-work search that
`Mining` starts (on the ledger with the reward transaction added) returns a
nonce, then `Mining` returns `true`, the chain afterwards has exactly one more
block, and the pool afterwards is empty. -/
theorem Mining_seals_one_block (c : Crypto) (fuel : Nat) (now : Int) (bc : Blockchain)
    (nonce : Int) (hpool : bc.transactionPool.len ≠ 0)
    (hpow : ProofOfWork c fuel (withReward bc) = Run.ok nonce) :
    ∃ bc', Mining c fuel now bc = Run.ok (true, bc') ∧
      bc'.chain.length = bc.chain.length + 1 ∧
      bc'.transactionPool = some [] ∧ bc'.transactionPool.len = 0 := by
  obtain ⟨tip, _, hM⟩ := Mining_eq_of_ProofOfWork c fuel now bc nonce hpool hpow
  refine ⟨_, hM, ?_, rfl, rfl⟩
  rw [CreateBlock_chain]
  simp [withReward]

/-- Witness for C2: mining the sample ledger with one pending transfer. -/
theorem Mining_seals_one_block_witness :
    ∃ bc', Mining sampleCrypto 5 9 samplePending = Run.ok (true, bc') ∧
      bc'.chain.length = samplePending.chain.length + 1 ∧
      bc'.transactionPool = some [] ∧ bc'.transactionPool.len = 0 :=
  Mining_seals_one_block sampleCrypto 5 9 samplePending 2 (by decide) (by decide)

/-- C3: on a ledger whose pool `p` is not empty, if the proof-of-work search
that `Mining` starts returns, then `Mining` returns `true` and appends to the chain
one block whose transactions are exactly `p`, in order, followed by one
transaction from `MINING_SENDER` to the ledger's own address with value
`MINING_REWARD`; that block has one transaction more than the pool had. -/
theorem Mining_block_transactions (c : Crypto) (fuel : Nat) (now : Int) (bc : Blockchain)
    (nonce : Int) (hpool : bc.transactionPool.len ≠ 0)
    (hpow : ProofOfWork c fuel (withReward bc) = Run.ok nonce) :
    ∃ b bc', Mining c fuel now bc = Run.ok (true, bc') ∧
      bc'.chain = bc.chain ++ [b] ∧
      b.Transactions = some (bc.transactionPool.elems ++
        [{ senderBlockchainAddress := MINING_SENDER,
           recipientBlockchainAddress := bc.blockchainAddress,
           value := MINING_REWARD }]) ∧
      b.Transactions.len = bc.transactionPool.len + 1 := by
  obtain ⟨tip, _, hM⟩ := Mining_eq_of_ProofOfWork c fuel now bc nonce hpool hpow
  refine ⟨NewBlock now nonce (tip.Hash c) (withReward bc).transactionPool, _, hM, ?_, rfl, ?_⟩
  · rw [CreateBlock_chain]
    rfl
  · exact TxSlice.len_push _ _

/-- Witness for C3: mining the sample ledger with one pending transfer. -/
theorem Mining_block_transactions_witness :
    ∃ b bc', Mining sampleCrypto 5 9 samplePending = Run.ok (true, bc') ∧
      bc'.chain = samplePending.chain ++ [b] ∧
      b.Transactions = some (samplePending.transactionPool.elems ++
        [{ senderBlockchainAddress := MINING_SENDER,
           recipientBlockchainAddress := samplePending.blockchainAddress,
           value := MINING_REWARD }]) ∧
      b.Transactions.len = samplePending.transactionPool.len + 1 :=
  Mining_block_transactions sampleCrypto 5 9 samplePending 2 (by decide) (by decide)

/-- C4: on a ledger whose pool is empty, `Mining` returns `false` and the ledger
afterwards is the ledger before: chain and pool are unchanged and no reward
transaction has been added. -/
theorem Mining_empty_pool (c : Crypto) (fuel : Nat) (now : Int) (bc : Blockchain)
    (hpool : bc.transactionPool.len = 0) :
    Mining c fuel now bc = Run.ok (false, bc) := by
  simp [Mining, hpool]

/-- Witness for C4: mining the freshly created sample ledger. -/
theorem Mining_empty_pool_witness :
    Mining sampleCrypto 0 9 sampleGenesis = Run.ok (false, sampleGenesis) :=
  Mining_empty_pool sampleCrypto 0 9 sampleGenesis (by decide)

/-- C5: for a sender other than `MINING_SENDER`, when
`VerifyTransactionSignature` accepts the transaction built from the submitted
sender, recipient and value, `AddTransaction` returns `true` and the ledger
afterwards differs from the ledger before only in its pool, which is the
previous pool followed by that one transaction; the chain (hence any balance)
plays no part. -/
theorem AddTransaction_accepts_verified (c : Crypto) (bc : Blockchain)
    (sender recipient : String) (value : ℚ) (senderPublicKey : Option PublicKey)
    (s : Option Signature) (hsender : sender ≠ MINING_SENDER)
    (hverify : VerifyTransactionSignature c senderPublicKey s
      (NewTransaction sender recipient value) = Run.ok true) :
    AddTransaction c bc sender recipient value senderPublicKey s =
      Run.ok (true, { bc with
        transactionPool := some (bc.transactionPool.elems ++
          [{ senderBlockchainAddress := sender, recipientBlockchainAddress := recipient,
             value := value }]) }) := by
  unfold AddTransaction
  simp only [if_neg hsender, hverify]
  rfl

/-- Witness for C5: a transfer signed with the signature the sample library
accepts. -/
theorem AddTransaction_accepts_verified_witness :
    AddTransaction sampleCrypto sampleGenesis "A" "B" 5 (some ⟨1, 1⟩) (some ⟨some 1, some 1⟩) =
      Run.ok (true, { sampleGenesis with
        transactionPool := some (sampleGenesis.transactionPool.elems ++
          [{ senderBlockchainAddress := "A", recipientBlockchainAddress := "B",
             value := 5 }]) }) :=
  AddTransaction_accepts_verified sampleCrypto sampleGenesis "A" "B" 5 (some ⟨1, 1⟩)
    (some ⟨some 1, some 1⟩) (by decide) (by decide)

/-- C6: for a sender other than `MINING_SENDER`, when
`VerifyTransactionSignature` rejects the transaction built from the submitted
sender, recipient and value, `AddTransaction` returns `false` and the ledger
afterwards (pool and chain) is the ledger before. -/
theorem AddTransaction_rejects_unverified (c : Crypto) (bc : Blockchain)
    (sender recipient : String) (value : ℚ) (senderPublicKey : Option PublicKey)
    (s : Option Signature) (hsender : sender ≠ MINING_SENDER)
    (hverify : VerifyTransactionSignature c senderPublicKey s
      (NewTransaction sender recipient value) = Run.ok false) :
    AddTransaction c bc sender recipient value senderPublicKey s = Run.ok (false, bc) := by
  unfold AddTransaction
  simp only [if_neg hsender, hverify]

/-- Witness for C6: a transfer with a signature the sample library rejects. -/
theorem AddTransaction_rejects_unverified_witness :
    AddTransaction sampleCrypto samplePending "A" "B" 5 (some ⟨1, 1⟩) (some ⟨some 2, some 1⟩) =
      Run.ok (false, samplePending) :=
  AddTransaction_rejects_unverified sampleCrypto samplePending "A" "B" 5 (some ⟨1, 1⟩)
    (some ⟨some 2, some 1⟩) (by decide) (by decide)

/-- C7: when the sender is `MINING_SENDER`, `AddTransaction` returns `true` and
appends the transaction at the end of the pool, for every recipient, value,
public key and signature (absent ones included) and whatever the library
functions do: the outcome is the same for any two instances of them, so the
signature check has no part in it. -/
theorem AddTransaction_from_mining_sender (c : Crypto) (bc : Blockchain) (recipient : String)
    (value : ℚ) (senderPublicKey : Option PublicKey) (s : Option Signature) :
    AddTransaction c bc MINING_SENDER recipient value senderPublicKey s =
      Run.ok (true, { bc with
        transactionPool := some (bc.transactionPool.elems ++
          [{ senderBlockchainAddress := MINING_SENDER, recipientBlockchainAddress := recipient,
             value := value }]) }) ∧
    AddTransaction c bc MINING_SENDER recipient value none none =
      Run.ok (true, { bc with
        transactionPool := some (bc.transactionPool.elems ++
          [{ senderBlockchainAddress := MINING_SENDER, recipientBlockchainAddress := recipient,
             value := value }]) }) ∧
    ∀ c' : Crypto, AddTransaction c' bc MINING_SENDER recipient value senderPublicKey s =
      AddTransaction c bc MINING_SENDER recipient value senderPublicKey s := by
  refine ⟨?_, ?_, ?_⟩
  · rw [AddTransaction_mining_sender]; rfl
  · rw [AddTransaction_mining_sender]; rfl
  · intro c'
    rw [AddTransaction_mining_sender, AddTransaction_mining_sender]

/-! ## Proof of work -/

theorem hexString_length (d : Digest) : (hexString d).length = 64 := by
  have h : ∀ l : List (Fin 256), (l.flatMap hexByte).length = 2 * l.length := by
    intro l
    induction l with
    | nil => rfl
    | cons x xs ih =>
      rw [List.flatMap_cons, List.length_append, ih]
      simp [hexByte]
      omega
  rw [hexString, h, d.size_eq]

theorem leadingZeros_cons (x : Char) (xs : List Char) :
    leadingZeros (x :: xs) = if x = '0' then leadingZeros xs + 1 else 0 := by
  unfold leadingZeros
  by_cases hx : x = '0'
  · simp [List.takeWhile_cons, hx]
  · simp [List.takeWhile_cons, hx]

theorem take_eq_zeros_iff (s : List Char) :
    ∀ d : Nat, s.take d = List.replicate d '0' ↔ d ≤ leadingZeros s := by
  induction s with
  | nil =>
    intro d
    cases d with
    | zero => simp
    | succ n => simp [leadingZeros, List.replicate_succ]
  | cons x xs ih =>
    intro d
    cases d with
    | zero => simp
    | succ n =>
      rw [List.take_succ_cons, List.replicate_succ, leadingZeros_cons, List.cons.injEq, ih n]
      by_cases hx : x = '0'
      · simp [hx]
      · simp [hx]

theorem wrap64_succ (x : Int) : wrap64 (wrap64 x + 1) = wrap64 (x + 1) := by
  unfold wrap64
  omega

theorem ValidProof_eq (c : Crypto) (nonce : Int) (previousHash : Digest)
    (transactions : TxSlice) (d : Int) (h0 : 0 ≤ d) (h64 : d ≤ 64) :
    ValidProof c nonce previousHash transactions d =
      Run.ok (decide (d.toNat ≤ leadingZeros (hexString (Block.Hash c
        { Timestamp := 0, Nonce := nonce, PreviousHash := previousHash,
          Transactions := transactions })))) := by
  unfold ValidProof
  have hneg : ¬ d < 0 := by omega
  have hlen : ¬ (hexString (Block.Hash c
        { Timestamp := 0, Nonce := nonce, PreviousHash := previousHash,
          Transactions := transactions })).length < d.toNat := by
    rw [hexString_length]
    omega
  simp only [if_neg hneg, if_neg hlen]
  congr 1
  exact decide_eq_decide.mpr (take_eq_zeros_iff _ _)

theorem ValidProof_difficulty (c : Crypto) (nonce : Int) (previousHash : Digest)
    (transactions : TxSlice) :
    ∃ r, ValidProof c nonce previousHash transactions MINING_DIFFICULTY = Run.ok r :=
  ⟨_, ValidProof_eq c nonce previousHash transactions MINING_DIFFICULTY (by decide) (by decide)⟩

theorem ValidProof_panics (c : Crypto) (nonce : Int) (previousHash : Digest)
    (transactions : TxSlice) (d : Int) (h : d < 0 ∨ 64 < d) :
    ValidProof c nonce previousHash transactions d = Run.panic := by
  unfold ValidProof
  by_cases hneg : d < 0
  · simp [hneg]
  · have hlen : (hexString (Block.Hash c
        { Timestamp := 0, Nonce := nonce, PreviousHash := previousHash,
          Transactions := transactions })).length < d.toNat := by
      rw [hexString_length]
      omega
    simp only [if_neg hneg, if_pos hlen]

theorem powLoop_sound (c : Crypto) (previousHash : Digest) (transaction : TxSlice) :
    ∀ (fuel : Nat) (s n : Int),
      powLoop c previousHash transaction fuel (wrap64 s) = Run.ok n →
      ∃ k : Nat, k < fuel ∧ n = wrap64 (s + k) ∧
        ValidProof c n previousHash transaction MINING_DIFFICULTY = Run.ok true ∧
        ∀ i : Nat, i < k →
          ValidProof c (wrap64 (s + i)) previousHash transaction MINING_DIFFICULTY =
            Run.ok false := by
  intro fuel
  induction fuel with
  | zero => intro s n h; simp [powLoop] at h
  | succ fuel ih =>
    intro s n h
    unfold powLoop at h
    cases hv : ValidProof c (wrap64 s) previousHash transaction MINING_DIFFICULTY with
    | ok r =>
      cases r with
      | true =>
        simp only [hv] at h
        cases h
        exact ⟨0, Nat.succ_pos _, by simp, hv, fun i hi => absurd hi (Nat.not_lt_zero i)⟩
      | false =>
        simp only [hv] at h
        rw [wrap64_succ] at h
        obtain ⟨k, hk, hn, hvalid, hbelow⟩ := ih (s + 1) n h
        refine ⟨k + 1, Nat.succ_lt_succ hk, ?_, hvalid, ?_⟩
        · rw [hn]; congr 1; push_cast; ring
        · intro i hi
          cases i with
          | zero => simpa using hv
          | succ j =>
            have := hbelow j (by omega)
            rw [← this]; congr 2; push_cast; ring
    | panic => simp [hv] at h
    | outOfFuel => simp [hv] at h

theorem receivedTotal_cons (t : Transaction) (ts : List Transaction) (a : String) :
    receivedTotal (t :: ts) a =
      (if t.recipientBlockchainAddress = a then t.value else 0) + receivedTotal ts a := by
  unfold receivedTotal
  by_cases h : t.recipientBlockchainAddress = a
  · simp [List.filter_cons, h]
  · simp [List.filter_cons, h]

theorem sentTotal_cons (t : Transaction) (ts : List Transaction) (a : String) :
    sentTotal (t :: ts) a =
      (if t.senderBlockchainAddress = a then t.value else 0) + sentTotal ts a := by
  unfold sentTotal
  by_cases h : t.senderBlockchainAddress = a
  · simp [List.filter_cons, h]
  · simp [List.filter_cons, h]

theorem receivedTotal_append (l₁ l₂ : List Transaction) (a : String) :
    receivedTotal (l₁ ++ l₂) a = receivedTotal l₁ a + receivedTotal l₂ a := by
  simp [receivedTotal]

theorem sentTotal_append (l₁ l₂ : List Transaction) (a : String) :
    sentTotal (l₁ ++ l₂) a = sentTotal l₁ a + sentTotal l₂ a := by
  simp [sentTotal]

theorem net_reward_only (a : String) (ha : a ≠ MINING_SENDER) (txs : List Transaction)
    (h : ∀ t ∈ txs, (t.senderBlockchainAddress = a ∨ t.recipientBlockchainAddress = a) →
      t = rewardTo a) :
    receivedTotal txs a - sentTotal txs a = MINING_REWARD * (txs.count (rewardTo a) : ℚ) := by
  induction txs with
  | nil => simp [receivedTotal, sentTotal]
  | cons t ts ih =>
    have ih' := ih (fun t' ht' => h t' (List.mem_cons_of_mem _ ht'))
    have ht := h t (List.mem_cons_self _ _)
    rw [receivedTotal_cons, sentTotal_cons, List.count_cons]
    by_cases hn : t.senderBlockchainAddress = a ∨ t.recipientBlockchainAddress = a
    · have e := ht hn
      have hs : ¬ (rewardTo a).senderBlockchainAddress = a := fun h' => ha h'.symm
      have hr : (rewardTo a).recipientBlockchainAddress = a := rfl
      have hv : (rewardTo a).value = MINING_REWARD := rfl
      rw [e]
      simp only [hs, hr, hv, if_true, if_false, beq_self_eq_true]
      push_cast
      linear_combination ih'
    · have hs : ¬ t.senderBlockchainAddress = a := fun h' => hn (Or.inl h')
      have hr : ¬ t.recipientBlockchainAddress = a := fun h' => hn (Or.inr h')
      have hne : ¬ (t == rewardTo a) = true := by
        intro h'
        exact hr (by rw [eq_of_beq h']; rfl)
      simp only [hs, hr, hne, if_false]
      push_cast
      linear_combination ih'

theorem receivedTotal_filter_naming (a : String) (txs : List Transaction) :
    receivedTotal (txs.filter fun t =>
      decide (t.senderBlockchainAddress = a ∨ t.recipientBlockchainAddress = a)) a =
      receivedTotal txs a := by
  unfold receivedTotal
  rw [List.filter_filter]
  congr 2
  apply List.filter_congr
  intro t _
  by_cases hr : t.recipientBlockchainAddress = a <;> simp [hr]

theorem sentTotal_filter_naming (a : String) (txs : List Transaction) :
    sentTotal (txs.filter fun t =>
      decide (t.senderBlockchainAddress = a ∨ t.recipientBlockchainAddress = a)) a =
      sentTotal txs a := by
  unfold sentTotal
  rw [List.filter_filter]
  congr 2
  apply List.filter_congr
  intro t _
  by_cases hr : t.senderBlockchainAddress = a <;> simp [hr]

/-! ## Further facts about the operations -/

theorem CopyTransactionPool_eq (bc : Blockchain) :
    CopyTransactionPool bc = some bc.transactionPool.elems := by
  unfold CopyTransactionPool
  congr 1
  exact List.map_id'' (fun t => rfl) _

theorem AddTransaction_inv (c : Crypto) (bc bc' : Blockchain) (sender recipient : String)
    (value : ℚ) (senderPublicKey : Option PublicKey) (s : Option Signature) (r : Bool)
    (h : AddTransaction c bc sender recipient value senderPublicKey s = Run.ok (r, bc')) :
    bc' = bc ∨
      bc' = { bc with
        transactionPool := bc.transactionPool.push (NewTransaction sender recipient value) } := by
  unfold AddTransaction at h
  by_cases hs : sender = MINING_SENDER
  · simp only [if_pos hs] at h
    cases h
    exact Or.inr rfl
  · simp only [if_neg hs] at h
    cases hv : VerifyTransactionSignature c senderPublicKey s
        (NewTransaction sender recipient value) with
    | ok b =>
      cases b
      · simp only [hv] at h
        cases h
        exact Or.inl rfl
      · simp only [hv] at h
        cases h
        exact Or.inr rfl
    | panic => simp [hv] at h
    | outOfFuel => simp [hv] at h

theorem powLoop_ne_panic (c : Crypto) (previousHash : Digest) (transaction : TxSlice) :
    ∀ (fuel : Nat) (nonce : Int),
      powLoop c previousHash transaction fuel nonce ≠ Run.panic := by
  intro fuel
  induction fuel with
  | zero => intro nonce h; simp [powLoop] at h
  | succ fuel ih =>
    intro nonce h
    unfold powLoop at h
    obtain ⟨r, hr⟩ := ValidProof_difficulty c nonce previousHash transaction
    rw [hr] at h
    cases r with
    | true => simp at h
    | false => exact ih _ h

theorem ProofOfWork_ne_panic (c : Crypto) (fuel : Nat) (bc : Blockchain) (tip : Block)
    (htip : LastBlock bc = Run.ok tip) : ProofOfWork c fuel bc ≠ Run.panic := by
  unfold ProofOfWork
  simp only [htip]
  exact powLoop_ne_panic c _ _ fuel 0

theorem LastBlock_of_ne_nil (bc : Blockchain) (h : bc.chain ≠ []) :
    ∃ b, LastBlock bc = Run.ok b := by
  unfold LastBlock
  cases hl : bc.chain.getLast? with
  | none => exact absurd (List.getLast?_eq_none_iff.mp hl) h
  | some b => exact ⟨b, rfl⟩

theorem Mining_ne_panic (c : Crypto) (fuel : Nat) (now : Int) (bc : Blockchain)
    (h : bc.chain ≠ []) : Mining c fuel now bc ≠ Run.panic := by
  obtain ⟨tip, htip⟩ := LastBlock_of_ne_nil (withReward bc) h
  unfold Mining
  by_cases hpool : bc.transactionPool.len = 0
  · simp [hpool]
  · rw [if_neg hpool, AddTransaction_reward]
    simp only [htip]
    cases hpow : ProofOfWork c fuel (withReward bc) with
    | ok n => simp
    | panic => exact absurd hpow (ProofOfWork_ne_panic c fuel _ tip htip)
    | outOfFuel => simp

theorem Mining_chain_ne_nil (c : Crypto) (fuel : Nat) (now : Int) (bc bc' : Blockchain)
    (r : Bool) (h : Mining c fuel now bc = Run.ok (r, bc')) (hne : bc.chain ≠ []) :
    bc'.chain ≠ [] := by
  cases r with
  | false => rw [Mining_false_inv c fuel now bc bc' h]; exact hne
  | true =>
    obtain ⟨_, nonce, tip, _, _, hbc'⟩ := Mining_true_inv c fuel now bc bc' h
    rw [hbc', CreateBlock_chain]
    simp

theorem ProofOfWork_valid (c : Crypto) (fuel : Nat) (bc : Blockchain) (n : Int)
    (h : ProofOfWork c fuel bc = Run.ok n) :
    ∃ tip, bc.chain.getLast? = some tip ∧
      ValidProof c n (tip.Hash c) (CopyTransactionPool bc) MINING_DIFFICULTY = Run.ok true := by
  obtain ⟨tip, htip, hLast⟩ := LastBlock_of_ProofOfWork c fuel bc n h
  refine ⟨tip, htip, ?_⟩
  unfold ProofOfWork at h
  simp only [hLast] at h
  have h' : powLoop c (tip.Hash c) (CopyTransactionPool bc) fuel (wrap64 0) = Run.ok n := h
  obtain ⟨_, _, _, hvalid, _⟩ := powLoop_sound c _ _ fuel 0 n h'
  exact hvalid

/-- The block a successful `Mining` appends passes `ValidProof`. -/
theorem Mining_appended_valid (c : Crypto) (fuel : Nat) (now : Int) (bc bc' : Blockchain)
    (h : Mining c fuel now bc = Run.ok (true, bc')) :
    ∃ b, bc'.chain = bc.chain ++ [b] ∧ b.Timestamp = now ∧
      ValidProof c b.Nonce b.PreviousHash b.Transactions MINING_DIFFICULTY = Run.ok true := by
  obtain ⟨_, nonce, tip, hpow, htip, hbc'⟩ := Mining_true_inv c fuel now bc bc' h
  obtain ⟨tip', htip', hvalid⟩ := ProofOfWork_valid c fuel (withReward bc) nonce hpow
  have e : tip' = tip := by
    have : (withReward bc).chain.getLast? = some tip := htip
    rw [this] at htip'
    cases htip'
    rfl
  rw [e, CopyTransactionPool_eq] at hvalid
  refine ⟨NewBlock now nonce (tip.Hash c) (withReward bc).transactionPool, ?_, rfl, hvalid⟩
  rw [hbc', CreateBlock_chain]
  rfl

/-! ## Claims about the chain, the genesis block and the sealed block -/

theorem chain_ne_nil_of_reachable (c : Crypto) (bc : Blockchain)
    (h : ReachableWithCreateBlock c bc) : bc.chain ≠ [] := by
  induction h with
  | init now blockchainAddress port => simp [NewBlockchain, CreateBlock]
  | addTransaction sender recipient value senderPublicKey s r bc' _ hadd ih =>
    rw [AddTransaction_chain c _ bc' sender recipient value senderPublicKey s r hadd]
    exact ih
  | createBlock now nonce previousHash _ ih =>
    rw [CreateBlock_chain]
    simp
  | @mining bc0 fuel now r bc' _ hmine ih =>
    exact Mining_chain_ne_nil c fuel now bc0 bc' r hmine ih

/-- C12: in every ledger reachable from `NewBlockchain` by calls of
`AddTransaction`, `CreateBlock` and `Mining` that return, the chain is not empty;
hence `LastBlock` returns a block, and neither `ProofOfWork` nor `Mining` panics
there, whatever iteration budget they are given. -/
theorem reachable_chain_nonempty (c : Crypto) (bc : Blockchain)
    (h : ReachableWithCreateBlock c bc) :
    bc.chain ≠ [] ∧ 1 ≤ bc.chain.length ∧
    (∃ b, LastBlock bc = Run.ok b) ∧
    (∀ fuel : Nat, ProofOfWork c fuel bc ≠ Run.panic) ∧
    (∀ (fuel : Nat) (now : Int), Mining c fuel now bc ≠ Run.panic) := by
  have hne := chain_ne_nil_of_reachable c bc h
  obtain ⟨tip, htip⟩ := LastBlock_of_ne_nil bc hne
  refine ⟨hne, List.length_pos.mpr hne, ⟨tip, htip⟩, ?_, ?_⟩
  · intro fuel
    exact ProofOfWork_ne_panic c fuel bc tip htip
  · intro fuel now
    exact Mining_ne_panic c fuel now bc hne

/-- Witness for C12: the sample ledger after a direct call of `CreateBlock`. -/
theorem reachable_chain_nonempty_witness :
    ReachableWithCreateBlock sampleCrypto (CreateBlock 3 samplePending 0 Digest.zero).2 ∧
    ((CreateBlock 3 samplePending 0 Digest.zero).2.chain ≠ [] ∧
      1 ≤ (CreateBlock 3 samplePending 0 Digest.zero).2.chain.length ∧
      (∃ b, LastBlock (CreateBlock 3 samplePending 0 Digest.zero).2 = Run.ok b) ∧
      (∀ fuel : Nat,
        ProofOfWork sampleCrypto fuel (CreateBlock 3 samplePending 0 Digest.zero).2 ≠ Run.panic) ∧
      (∀ (fuel : Nat) (now : Int),
        Mining sampleCrypto fuel now (CreateBlock 3 samplePending 0 Digest.zero).2 ≠
          Run.panic)) :=
  have hr : ReachableWithCreateBlock sampleCrypto (CreateBlock 3 samplePending 0 Digest.zero).2 :=
    ReachableWithCreateBlock.createBlock 3 0 Digest.zero
      (ReachableWithCreateBlock.addTransaction "A" "B" 5 (some ⟨1, 1⟩) (some ⟨some 1, some 1⟩)
        true samplePending (ReachableWithCreateBlock.init 7 "miner" 5000) (by decide))
  ⟨hr, reachable_chain_nonempty sampleCrypto _ hr⟩

/-- C13: the chain is append-only. A call of `AddTransaction` that returns, with
either flag, leaves the chain as it was; `CreateBlock` yields the previous chain
followed by the one block it returns; and a call of `Mining` that returns `true`
yields the previous chain followed by one block. The earlier blocks are the same
values, in the same order. -/
theorem chain_append_only (c : Crypto) (bc : Blockchain) :
    (∀ (sender recipient : String) (value : ℚ) (senderPublicKey : Option PublicKey)
        (s : Option Signature) (r : Bool) (bc' : Blockchain),
        AddTransaction c bc sender recipient value senderPublicKey s = Run.ok (r, bc') →
        bc'.chain = bc.chain) ∧
    (∀ (now nonce : Int) (previousHash : Digest),
        (CreateBlock now bc nonce previousHash).2.chain =
          bc.chain ++ [(CreateBlock now bc nonce previousHash).1]) ∧
    (∀ (fuel : Nat) (now : Int) (bc' : Blockchain),
        Mining c fuel now bc = Run.ok (true, bc') →
        ∃ b, bc'.chain = bc.chain ++ [b]) := by
  refine ⟨?_, ?_, ?_⟩
  · intro sender recipient value senderPublicKey s r bc' h
    exact AddTransaction_chain c bc bc' sender recipient value senderPublicKey s r h
  · intro now nonce previousHash
    rfl
  · intro fuel now bc' h
    obtain ⟨b, hb, _⟩ := Mining_appended_valid c fuel now bc bc' h
    exact ⟨b, hb⟩

/-- Witness for C13: an accepted transfer, and a mined block, on the sample ledger. -/
theorem chain_append_only_witness :
    samplePending.chain = sampleGenesis.chain ∧
    ∃ b, sampleMined.chain = samplePending.chain ++ [b] :=
  ⟨(chain_append_only sampleCrypto sampleGenesis).1 "A" "B" 5 (some ⟨1, 1⟩)
      (some ⟨some 1, some 1⟩) true samplePending (by decide),
    (chain_append_only sampleCrypto samplePending).2.2 5 9 sampleMined (by decide)⟩

/-- C17: `NewBlockchain` returns a ledger whose chain is the single genesis
block, with nonce `0`, with the hash of the zero-valued `Block` as previous hash
and with no transactions, whose pool is empty, and whose address (and port) are
the ones given. -/
theorem NewBlockchain_genesis (c : Crypto) (now : Int) (blockchainAddress : String)
    (port : Fin 65536) :
    ∃ genesis, (NewBlockchain c now blockchainAddress port).chain = [genesis] ∧
      (NewBlockchain c now blockchainAddress port).chain.length = 1 ∧
      genesis.Nonce = 0 ∧
      genesis.PreviousHash = Block.Hash c Block.zero ∧
      genesis.Transactions.elems = [] ∧ genesis.Transactions.len = 0 ∧
      (NewBlockchain c now blockchainAddress port).transactionPool.elems = [] ∧
      (NewBlockchain c now blockchainAddress port).transactionPool.len = 0 ∧
      (NewBlockchain c now blockchainAddress port).blockchainAddress = blockchainAddress ∧
      (NewBlockchain c now blockchainAddress port).port = port :=
  ⟨NewBlock now 0 (Block.Hash c Block.zero) none, rfl, rfl, rfl, rfl, rfl, rfl, rfl, rfl, rfl, rfl⟩

/-- C18: `CopyTransactionPool` returns a slice of the same length as the pool
whose entry at each index has the sender, recipient and value of the pool's
entry at that index. It is a function of the ledger that returns only the copy:
the source writes to no field of the ledger. -/
theorem CopyTransactionPool_same_entries (bc : Blockchain) :
    (CopyTransactionPool bc).len = bc.transactionPool.len ∧
    (CopyTransactionPool bc).elems = bc.transactionPool.elems ∧
    (∀ (i : Nat) (t : Transaction), bc.transactionPool.elems[i]? = some t →
      ∃ t', (CopyTransactionPool bc).elems[i]? = some t' ∧
        t'.senderBlockchainAddress = t.senderBlockchainAddress ∧
        t'.recipientBlockchainAddress = t.recipientBlockchainAddress ∧
        t'.value = t.value) := by
  rw [CopyTransactionPool_eq]
  refine ⟨rfl, rfl, ?_⟩
  intro i t ht
  exact ⟨t, ht, rfl, rfl, rfl⟩

/-- Witness for C18: the copy of the pool of the sample ledger. -/
theorem CopyTransactionPool_same_entries_witness :
    ∃ t', (CopyTransactionPool samplePending).elems[0]? = some t' ∧
      t'.senderBlockchainAddress = "A" ∧ t'.recipientBlockchainAddress = "B" ∧ t'.value = 5 :=
  (CopyTransactionPool_same_entries samplePending).2.2 0 (NewTransaction "A" "B" 5) (by decide)

/-- C19: `CreateBlock(n, h)` returns a block with nonce `n`, previous hash `h` and
the pool as it was before the call as its transactions; that block is the last
block of the chain afterwards (which is the chain before followed by it), and
the pool afterwards is empty. -/
theorem CreateBlock_seals_pool (now : Int) (bc : Blockchain) (n : Int) (h : Digest) :
    (CreateBlock now bc n h).1.Nonce = n ∧
    (CreateBlock now bc n h).1.PreviousHash = h ∧
    (CreateBlock now bc n h).1.Transactions = bc.transactionPool ∧
    (CreateBlock now bc n h).1.Transactions.elems = bc.transactionPool.elems ∧
    (CreateBlock now bc n h).2.chain = bc.chain ++ [(CreateBlock now bc n h).1] ∧
    (CreateBlock now bc n h).2.chain.getLast? = some (CreateBlock now bc n h).1 ∧
    LastBlock (CreateBlock now bc n h).2 = Run.ok (CreateBlock now bc n h).1 ∧
    (CreateBlock now bc n h).2.transactionPool.elems = [] ∧
    (CreateBlock now bc n h).2.transactionPool.len = 0 := by
  have hl : (CreateBlock now bc n h).2.chain.getLast? = some (CreateBlock now bc n h).1 := by
    rw [CreateBlock_chain]
    simp [CreateBlock]
  refine ⟨rfl, rfl, rfl, rfl, rfl, hl, ?_, rfl, rfl⟩
  unfold LastBlock
  rw [hl]

/-- C20: the block `b` appended by a call of `Mining` that returns `true` satisfies
`ValidProof(b.Nonce, b.PreviousHash, b.Transactions, MINING_DIFFICULTY)`: the
nonce found on the copy of the pool and the hash of the previous last block is a
valid proof for the previous hash and the transactions (reward included) stored
in the block, the candidate block of `ValidProof` having timestamp `0`. -/
theorem Mining_block_is_valid_proof (c : Crypto) (fuel : Nat) (now : Int) (bc bc' : Blockchain)
    (h : Mining c fuel now bc = Run.ok (true, bc')) :
    ∃ b tip, bc'.chain = bc.chain ++ [b] ∧ bc.chain.getLast? = some tip ∧
      b.PreviousHash = tip.Hash c ∧
      b.Transactions = some (bc.transactionPool.elems ++ [rewardTo bc.blockchainAddress]) ∧
      ValidProof c b.Nonce b.PreviousHash b.Transactions MINING_DIFFICULTY = Run.ok true := by
  obtain ⟨_, nonce, tip, hpow, htip, hbc'⟩ := Mining_true_inv c fuel now bc bc' h
  obtain ⟨b, hb, _, hvalid⟩ := Mining_appended_valid c fuel now bc bc' h
  have e : b = NewBlock now nonce (tip.Hash c) (withReward bc).transactionPool := by
    rw [hbc', CreateBlock_chain] at hb
    have := List.append_cancel_left hb
    cases this
    rfl
  refine ⟨b, tip, hb, htip, ?_, ?_, hvalid⟩
  · rw [e]; rfl
  · rw [e]; rfl

/-- Witness for C20: the block mined on the sample ledger. -/
theorem Mining_block_is_valid_proof_witness :
    ∃ b tip, sampleMined.chain = samplePending.chain ++ [b] ∧
      samplePending.chain.getLast? = some tip ∧
      b.PreviousHash = tip.Hash sampleCrypto ∧
      b.Transactions = some (samplePending.transactionPool.elems ++
        [rewardTo samplePending.blockchainAddress]) ∧
      ValidProof sampleCrypto b.Nonce b.PreviousHash b.Transactions MINING_DIFFICULTY =
        Run.ok true :=
  Mining_block_is_valid_proof sampleCrypto 5 9 samplePending sampleMined (by decide)

/-! ## Claims about signatures, proof of work on the stored block, values and supply -/

/-- C14 (amended): with a signature that is present, `VerifyTransactionSignature`
returns what `ecdsa.Verify` returns for the key, the digest of the transaction
and the two numbers of the signature; and when that is `false`,
`AddTransaction` with a sender other than `MINING_SENDER` returns `false` and
leaves the ledger as it was. -/
theorem VerifyTransactionSignature_present (c : Crypto) (senderPublicKey : Option PublicKey)
    (sig : Signature) :
    (∀ t : Transaction,
      VerifyTransactionSignature c senderPublicKey (some sig) t =
        c.ecdsaVerify senderPublicKey (c.txSum t) sig.R sig.S) ∧
    (∀ (bc : Blockchain) (sender recipient : String) (value : ℚ),
      sender ≠ MINING_SENDER →
      c.ecdsaVerify senderPublicKey (c.txSum (NewTransaction sender recipient value))
        sig.R sig.S = Run.ok false →
      VerifyTransactionSignature c senderPublicKey (some sig)
        (NewTransaction sender recipient value) = Run.ok false ∧
      AddTransaction c bc sender recipient value senderPublicKey (some sig) =
        Run.ok (false, bc)) := by
  refine ⟨fun _ => rfl, ?_⟩
  intro bc sender recipient value hsender hv
  have hverify : VerifyTransactionSignature c senderPublicKey (some sig)
      (NewTransaction sender recipient value) = Run.ok false := hv
  refine ⟨hverify, ?_⟩
  unfold AddTransaction
  simp only [if_neg hsender, hverify]

/-- Witness for C14 (amended): a present signature that the sample library rejects. -/
theorem VerifyTransactionSignature_present_witness :
    VerifyTransactionSignature sampleCrypto (some ⟨1, 1⟩) (some ⟨some 2, some 1⟩)
        (NewTransaction "A" "B" 5) = Run.ok false ∧
    AddTransaction sampleCrypto samplePending "A" "B" 5 (some ⟨1, 1⟩) (some ⟨some 2, some 1⟩) =
      Run.ok (false, samplePending) :=
  (VerifyTransactionSignature_present sampleCrypto (some ⟨1, 1⟩) ⟨some 2, some 1⟩).2
    samplePending "A" "B" 5 (by decide) (by decide)

/-- Counterexample for C14 as stated: with an absent signature the expression
`s.R` dereferences a nil pointer, so `VerifyTransactionSignature` panics instead
of returning `false`, and so does `AddTransaction` for a sender other than
`MINING_SENDER`. -/
theorem absent_signature_counterexample :
    VerifyTransactionSignature sampleCrypto (some ⟨1, 1⟩) none (NewTransaction "A" "B" 5) =
      Run.panic ∧
    "A" ≠ MINING_SENDER ∧
    AddTransaction sampleCrypto sampleGenesis "A" "B" 5 (some ⟨1, 1⟩) none = Run.panic := by
  decide

/-- C16 (amended): the block `b` appended by a call of `Mining` that returns `true`
is such that the hash of the block with timestamp `0` and with the nonce,
previous hash and transactions of `b` has a hexadecimal rendering with at least
`MINING_DIFFICULTY` (3) leading `'0'` characters. -/
theorem Mining_block_zero_timestamp_hash (c : Crypto) (fuel : Nat) (now : Int)
    (bc bc' : Blockchain) (h : Mining c fuel now bc = Run.ok (true, bc')) :
    ∃ b, bc'.chain = bc.chain ++ [b] ∧ b.Timestamp = now ∧
      3 ≤ leadingZeros (hexString (Block.Hash c { b with Timestamp := 0 })) ∧
      (hexString (Block.Hash c { b with Timestamp := 0 })).take 3 = ['0', '0', '0'] := by
  obtain ⟨b, hb, hts, hvalid⟩ := Mining_appended_valid c fuel now bc bc' h
  rw [ValidProof_eq c b.Nonce b.PreviousHash b.Transactions MINING_DIFFICULTY (by decide)
    (by decide)] at hvalid
  have hz : 3 ≤ leadingZeros (hexString (Block.Hash c { b with Timestamp := 0 })) := by
    injection hvalid with hvalid
    exact of_decide_eq_true hvalid
  exact ⟨b, hb, hts, hz, (take_eq_zeros_iff _ 3).mpr hz⟩

/-- Witness for C16 (amended): the block mined on the sample ledger. -/
theorem Mining_block_zero_timestamp_hash_witness :
    ∃ b, sampleMined.chain = samplePending.chain ++ [b] ∧ b.Timestamp = 9 ∧
      3 ≤ leadingZeros (hexString (Block.Hash sampleCrypto { b with Timestamp := 0 })) ∧
      (hexString (Block.Hash sampleCrypto { b with Timestamp := 0 })).take 3 =
        ['0', '0', '0'] :=
  Mining_block_zero_timestamp_hash sampleCrypto 5 9 samplePending sampleMined (by decide)

/-- Counterexample for C16 as stated: with a digest that depends on the
timestamp, `Mining` at time `9` seals a block whose proof of work was checked on
the candidate with timestamp `0`; the hash of the stored block, which carries
timestamp `9`, renders as `ff00...` and has no leading `'0'` at all. -/
theorem stored_block_hash_counterexample :
    Mining timedCrypto 5 9 timedPending = Run.ok (true, timedMined) ∧
    timedMined.chain = timedPending.chain ++ [timedBlock] ∧
    (hexString (Block.Hash timedCrypto timedBlock)).take 3 = ['f', 'f', '0'] ∧
    leadingZeros (hexString (Block.Hash timedCrypto timedBlock)) = 0 ∧
    ¬ 3 ≤ leadingZeros (hexString (Block.Hash timedCrypto timedBlock)) := by
  decide

theorem sealedTransactions_NewBlockchain (c : Crypto) (now : Int) (blockchainAddress : String)
    (port : Fin 65536) : sealedTransactions (NewBlockchain c now blockchainAddress port) = [] := by
  simp [sealedTransactions, NewBlockchain, CreateBlock, NewBlock, TxSlice.elems]

/-- What a call of `Mining` that returns `true` does to pool, blocks and address. -/
theorem Mining_true_sealed (c : Crypto) (fuel : Nat) (now : Int) (bc bc' : Blockchain)
    (h : Mining c fuel now bc = Run.ok (true, bc')) :
    bc'.transactionPool = some [] ∧
    sealedTransactions bc' =
      sealedTransactions bc ++ (bc.transactionPool.elems ++ [rewardTo bc.blockchainAddress]) ∧
    bc'.chain.length = bc.chain.length + 1 ∧
    bc'.blockchainAddress = bc.blockchainAddress := by
  obtain ⟨_, nonce, tip, _, _, hbc'⟩ := Mining_true_inv c fuel now bc bc' h
  subst hbc'
  refine ⟨rfl, ?_, ?_, rfl⟩
  · unfold sealedTransactions
    rw [CreateBlock_chain, List.flatMap_append]
    simp [NewBlock, withReward, TxSlice.push, TxSlice.elems, rewardTo]
  · rw [CreateBlock_chain]
    simp [withReward]

theorem values_nonneg_of_reachable (c : Crypto) (k : Nat) (bc : Blockchain)
    (h : ReachableVia c (fun _ _ value => 0 ≤ value) k bc) :
    (∀ t ∈ bc.transactionPool.elems, 0 ≤ t.value) ∧
    (∀ t ∈ sealedTransactions bc, 0 ≤ t.value) := by
  induction h with
  | init now blockchainAddress port =>
    rw [sealedTransactions_NewBlockchain]
    refine ⟨?_, ?_⟩
    · intro t ht
      simp [NewBlockchain, CreateBlock, TxSlice.elems] at ht
    · intro t ht
      cases ht
  | @addTransaction k bc0 sender recipient value senderPublicKey s r bc' hallowed _ hadd ih =>
    rcases AddTransaction_inv c bc0 bc' sender recipient value senderPublicKey s r hadd with e | e
    · rw [e]; exact ih
    · rw [e]
      refine ⟨?_, ih.2⟩
      intro t ht
      rw [TxSlice.elems_push, List.mem_append, List.mem_singleton] at ht
      rcases ht with ht | ht
      · exact ih.1 t ht
      · rw [ht]; exact hallowed
  | @mined k bc0 fuel now bc' _ hmine ih =>
    obtain ⟨hpool, hsealed, _, _⟩ := Mining_true_sealed c fuel now bc0 bc' hmine
    rw [hpool, hsealed]
    refine ⟨?_, ?_⟩
    · intro t ht
      cases ht
    · intro t ht
      rw [List.mem_append, List.mem_append, List.mem_singleton] at ht
      rcases ht with ht | ht | ht
      · exact ih.2 t ht
      · exact ih.1 t ht
      · rw [ht]
        show (0 : ℚ) ≤ MINING_REWARD
        norm_num [MINING_REWARD]
  | @idle k bc0 fuel now bc' _ hmine ih =>
    rw [Mining_false_inv c fuel now bc0 bc' hmine]
    exact ih

/-- C15 (amended): in every ledger reachable from `NewBlockchain` by calls of
`Mining` and by calls of `AddTransaction` that were given a non-negative value,
every transaction held in the pool or in a block has a non-negative value;
`AddTransaction` stores the value it is given. -/
theorem reachable_values_nonnegative (c : Crypto) (k : Nat) (bc : Blockchain)
    (h : ReachableVia c (fun _ _ value => 0 ≤ value) k bc) :
    (∀ t ∈ bc.transactionPool.elems, 0 ≤ t.value) ∧
    (∀ b ∈ bc.chain, ∀ t ∈ b.Transactions.elems, 0 ≤ t.value) := by
  obtain ⟨hpool, hsealed⟩ := values_nonneg_of_reachable c k bc h
  refine ⟨hpool, ?_⟩
  intro b hb t ht
  exact hsealed t (List.mem_flatMap.mpr ⟨b, hb, ht⟩)

theorem sampleMined_reachable_nonneg :
    ReachableVia sampleCrypto (fun _ _ value => 0 ≤ value) 1 sampleMined :=
  ReachableVia.mined 5 9 sampleMined
    (ReachableVia.addTransaction "A" "B" 5 (some ⟨1, 1⟩) (some ⟨some 1, some 1⟩) true
      samplePending (by norm_num) (ReachableVia.init 7 "miner" 5000) (by decide))
    (by decide)

/-- Witness for C15 (amended): the sample ledger with one mined block. -/
theorem reachable_values_nonnegative_witness :
    ReachableVia sampleCrypto (fun _ _ value => 0 ≤ value) 1 sampleMined ∧
    ((∀ t ∈ sampleMined.transactionPool.elems, 0 ≤ t.value) ∧
      (∀ b ∈ sampleMined.chain, ∀ t ∈ b.Transactions.elems, 0 ≤ t.value)) :=
  ⟨sampleMined_reachable_nonneg,
    reachable_values_nonnegative sampleCrypto 1 sampleMined sampleMined_reachable_nonneg⟩

/-- Counterexample for C15 as stated: `AddTransaction(MINING_SENDER, "X", -5, nil, nil)`
on the fresh sample ledger returns `true` and leaves a transaction of value `-5`
in the pool of a reachable ledger. -/
theorem negative_value_counterexample :
    AddTransaction sampleCrypto sampleGenesis MINING_SENDER "X" (-5) none none =
      Run.ok (true, negativePending) ∧
    Reachable sampleCrypto negativePending ∧
    ∃ t ∈ negativePending.transactionPool.elems, t.value < 0 :=
  ⟨by decide,
    Reachable.addTransaction MINING_SENDER "X" (-5) none none true negativePending
      (Reachable.init 7 "miner" 5000) (by decide),
    by decide⟩

theorem sum_net_eq_minted (S : Finset String) (hS : MINING_SENDER ∉ S)
    (txs : List Transaction)
    (hcover : ∀ t ∈ txs,
      (t.senderBlockchainAddress ≠ MINING_SENDER → t.senderBlockchainAddress ∈ S) ∧
      (t.recipientBlockchainAddress ≠ MINING_SENDER → t.recipientBlockchainAddress ∈ S)) :
    Finset.sum S (fun a => receivedTotal txs a - sentTotal txs a) =
      sentTotal txs MINING_SENDER - receivedTotal txs MINING_SENDER := by
  induction txs with
  | nil => simp [receivedTotal, sentTotal]
  | cons t ts ih =>
    have ih' := ih (fun t' ht' => hcover t' (List.mem_cons_of_mem _ ht'))
    obtain ⟨hs, hr⟩ := hcover t (List.mem_cons_self _ _)
    have key : ∀ a : String,
        receivedTotal (t :: ts) a - sentTotal (t :: ts) a =
          ((if t.recipientBlockchainAddress = a then t.value else 0) -
            (if t.senderBlockchainAddress = a then t.value else 0)) +
          (receivedTotal ts a - sentTotal ts a) := by
      intro a
      rw [receivedTotal_cons, sentTotal_cons]
      ring
    simp only [key, Finset.sum_add_distrib, Finset.sum_sub_distrib, Finset.sum_ite_eq, ih']
    rw [receivedTotal_cons, sentTotal_cons]
    by_cases hr' : t.recipientBlockchainAddress = MINING_SENDER
    · have hrS : t.recipientBlockchainAddress ∉ S := by rw [hr']; exact hS
      by_cases hs' : t.senderBlockchainAddress = MINING_SENDER
      · have hsS : t.senderBlockchainAddress ∉ S := by rw [hs']; exact hS
        simp only [if_neg hrS, if_neg hsS, if_pos hr', if_pos hs']
        ring
      · simp only [if_neg hrS, if_pos (hs hs'), if_pos hr', if_neg hs']
        ring
    · by_cases hs' : t.senderBlockchainAddress = MINING_SENDER
      · have hsS : t.senderBlockchainAddress ∉ S := by rw [hs']; exact hS
        simp only [if_pos (hr hr'), if_neg hsS, if_neg hr', if_pos hs']
        ring
      · simp only [if_pos (hr hr'), if_pos (hs hs'), if_neg hr', if_neg hs']
        ring

theorem totals_zero_of_not_named (a : String) (txs : List Transaction)
    (h : ∀ t ∈ txs, t.senderBlockchainAddress ≠ a ∧ t.recipientBlockchainAddress ≠ a) :
    sentTotal txs a = 0 ∧ receivedTotal txs a = 0 := by
  induction txs with
  | nil => simp [receivedTotal, sentTotal]
  | cons t ts ih =>
    obtain ⟨hs, hr⟩ := h t (List.mem_cons_self _ _)
    obtain ⟨ihs, ihr⟩ := ih (fun t' ht' => h t' (List.mem_cons_of_mem _ ht'))
    rw [receivedTotal_cons, sentTotal_cons, if_neg hs, if_neg hr, ihs, ihr]
    simp

theorem minted_of_reachable (c : Crypto) (k : Nat) (bc : Blockchain)
    (h : ReachableVia c
      (fun sender recipient _ => sender ≠ MINING_SENDER ∧ recipient ≠ MINING_SENDER) k bc) :
    bc.blockchainAddress ≠ MINING_SENDER →
    (∀ t ∈ bc.transactionPool.elems,
      t.senderBlockchainAddress ≠ MINING_SENDER ∧
        t.recipientBlockchainAddress ≠ MINING_SENDER) ∧
    sentTotal (sealedTransactions bc) MINING_SENDER -
      receivedTotal (sealedTransactions bc) MINING_SENDER = MINING_REWARD * (k : ℚ) ∧
    bc.chain.length = k + 1 := by
  induction h with
  | init now blockchainAddress port =>
    intro _
    rw [sealedTransactions_NewBlockchain]
    refine ⟨?_, ?_, ?_⟩
    · intro t ht
      simp [NewBlockchain, CreateBlock, TxSlice.elems] at ht
    · simp [receivedTotal, sentTotal]
    · simp [NewBlockchain, CreateBlock]
  | @addTransaction k bc0 sender recipient value senderPublicKey s r bc' hallowed _ hadd ih =>
    rcases AddTransaction_inv c bc0 bc' sender recipient value senderPublicKey s r hadd with e | e
    · rw [e]; exact ih
    · rw [e]
      intro haddr
      obtain ⟨hpool, hsum, hlen⟩ := ih haddr
      refine ⟨?_, hsum, hlen⟩
      intro t ht
      rw [TxSlice.elems_push, List.mem_append, List.mem_singleton] at ht
      rcases ht with ht | ht
      · exact hpool t ht
      · rw [ht]; exact hallowed
  | @mined k bc0 fuel now bc' _ hmine ih =>
    obtain ⟨hpool', hsealed, hlen', haddr'⟩ := Mining_true_sealed c fuel now bc0 bc' hmine
    intro haddr
    rw [haddr'] at haddr
    obtain ⟨hpool, hsum, hlen⟩ := ih haddr
    obtain ⟨hz1, hz2⟩ := totals_zero_of_not_named MINING_SENDER _ hpool
    refine ⟨?_, ?_, ?_⟩
    · intro t ht
      rw [hpool'] at ht
      cases ht
    · rw [hsealed, sentTotal_append, receivedTotal_append, sentTotal_append,
        receivedTotal_append, hz1, hz2]
      have e1 : sentTotal [rewardTo bc0.blockchainAddress] MINING_SENDER = MINING_REWARD := by
        rw [sentTotal_cons]
        simp [rewardTo, NewTransaction, sentTotal]
      have e2 : receivedTotal [rewardTo bc0.blockchainAddress] MINING_SENDER = 0 := by
        rw [receivedTotal_cons]
        simp [rewardTo, NewTransaction, receivedTotal, haddr]
      rw [e1, e2]
      push_cast
      linear_combination hsum
    · rw [hlen', hlen]
  | @idle k bc0 fuel now bc' _ hmine ih =>
    rw [Mining_false_inv c fuel now bc0 bc' hmine]
    exact ih


/-! ## `ValidProof` at every difficulty -/

theorem leadingZeros_le_length (s : List Char) : leadingZeros s ≤ s.length :=
  (List.takeWhile_prefix _).length_le

/-- C8: for every nonce, previous hash, transaction list and difficulty `d >= 0`,
`ValidProof` returns `true` if and only if the hexadecimal rendering of the hash
of the block with timestamp `0` and the given nonce, previous hash and
transactions has at least `d` leading `'0'` characters. For `d <= 64` the call
returns a boolean; above `64`, where the 64-character rendering cannot have `d`
leading zeros, it does not return `true`. -/
theorem ValidProof_true_iff_leading_zeros (c : Crypto) (nonce : Int) (previousHash : Digest)
    (transactions : TxSlice) (d : Int) (h0 : 0 ≤ d) :
    (ValidProof c nonce previousHash transactions d = Run.ok true ↔
      d ≤ (leadingZeros (hexString (Block.Hash c
        { Timestamp := 0, Nonce := nonce, PreviousHash := previousHash,
          Transactions := transactions })) : Int)) ∧
    (d ≤ 64 → ∃ r : Bool, ValidProof c nonce previousHash transactions d = Run.ok r) := by
  refine ⟨?_, fun h64 => ⟨_, ValidProof_eq c nonce previousHash transactions d h0 h64⟩⟩
  rcases Int.le_or_lt d 64 with h64 | h64
  · rw [ValidProof_eq c nonce previousHash transactions d h0 h64]
    constructor
    · intro h
      injection h with h
      have := of_decide_eq_true h
      omega
    · intro h
      congr 1
      exact decide_eq_true (by omega)
  · rw [ValidProof_panics c nonce previousHash transactions d (Or.inr h64)]
    constructor
    · intro h
      cases h
    · intro h
      have hle := leadingZeros_le_length (hexString (Block.Hash c
        { Timestamp := 0, Nonce := nonce, PreviousHash := previousHash,
          Transactions := transactions }))
      rw [hexString_length] at hle
      omega

/-- Witness for C8: difficulty `3` on the sample library. -/
theorem ValidProof_true_iff_leading_zeros_witness :
    (ValidProof sampleCrypto 2 Digest.zero none 3 = Run.ok true ↔
      (3 : Int) ≤ (leadingZeros (hexString (Block.Hash sampleCrypto
        { Timestamp := 0, Nonce := 2, PreviousHash := Digest.zero,
          Transactions := none })) : Int)) ∧
    ((3 : Int) ≤ 64 → ∃ r : Bool, ValidProof sampleCrypto 2 Digest.zero none 3 = Run.ok r) :=
  ValidProof_true_iff_leading_zeros sampleCrypto 2 Digest.zero none 3 (by decide)

/-! ## A search that wraps around -/

theorem foldl_blocks_eq (a : String) (chain : List Block) :
    ∀ acc : Float32,
      chain.foldl (fun totalAmount b =>
        b.Transactions.elems.foldl (fun total t =>
          let value := t.value
          let total1 := if a = t.recipientBlockchainAddress then total.add value else total
          if a = t.senderBlockchainAddress then total1.sub value else total1)
          totalAmount) acc =
      (chain.flatMap fun b => b.Transactions.elems).foldl (balanceStep a) acc := by
  induction chain with
  | nil => intro acc; rfl
  | cons b bs ih =>
    intro acc
    rw [List.foldl_cons, ih, List.flatMap_cons, List.foldl_append]
    rfl

/-- The two nested loops of `CalculateTotalAmount` visit the transactions of the
blocks in order. -/
theorem CalculateTotalAmount_eq_foldl (bc : Blockchain) (a : String) :
    CalculateTotalAmount bc a =
      (sealedTransactions bc).foldl (balanceStep a) (Float32.finite 0) :=
  foldl_blocks_eq a bc.chain (Float32.finite 0)

theorem exactStep_eq (a : String) (total : ℚ) (t : Transaction) :
    exactStep a total t =
      total + ((if t.recipientBlockchainAddress = a then t.value else 0) -
        (if t.senderBlockchainAddress = a then t.value else 0)) := by
  unfold exactStep
  by_cases hr : t.recipientBlockchainAddress = a
  · have hr' : a = t.recipientBlockchainAddress := hr.symm
    by_cases hs : t.senderBlockchainAddress = a
    · have hs' : a = t.senderBlockchainAddress := hs.symm
      simp only [if_pos hr, if_pos hr', if_pos hs, if_pos hs']
      ring
    · have hs' : ¬ a = t.senderBlockchainAddress := fun h => hs h.symm
      simp only [if_pos hr, if_pos hr', if_neg hs, if_neg hs']
      ring
  · have hr' : ¬ a = t.recipientBlockchainAddress := fun h => hr h.symm
    by_cases hs : t.senderBlockchainAddress = a
    · have hs' : a = t.senderBlockchainAddress := hs.symm
      simp only [if_neg hr, if_neg hr', if_pos hs, if_pos hs']
      ring
    · have hs' : ¬ a = t.senderBlockchainAddress := fun h => hs h.symm
      simp only [if_neg hr, if_neg hr', if_neg hs, if_neg hs']
      ring

/-- Where nothing rounds, one step of the loop is the exact step. -/
theorem balanceStep_exact (a : String) (total : ℚ) (t : Transaction)
    (hr : a = t.recipientBlockchainAddress →
      roundFloat32 (total + t.value) = Float32.finite (total + t.value))
    (hs : a = t.senderBlockchainAddress →
      roundFloat32 ((if a = t.recipientBlockchainAddress then total + t.value else total) -
          t.value) =
        Float32.finite ((if a = t.recipientBlockchainAddress then total + t.value else total) -
          t.value)) :
    balanceStep a (Float32.finite total) t = Float32.finite (exactStep a total t) := by
  unfold balanceStep exactStep
  by_cases h1 : a = t.recipientBlockchainAddress
  · by_cases h2 : a = t.senderBlockchainAddress
    · have hs' := hs h2
      simp only [if_pos h1] at hs'
      simp only [if_pos h1, if_pos h2, Float32.add, hr h1, Float32.sub, hs']
    · simp only [if_pos h1, if_neg h2, Float32.add, hr h1]
  · by_cases h2 : a = t.senderBlockchainAddress
    · have hs' := hs h2
      simp only [if_neg h1] at hs'
      simp only [if_neg h1, if_pos h2, Float32.sub, hs']
    · simp only [if_neg h1, if_neg h2]

theorem foldl_balanceStep_exact (a : String) (txs : List Transaction) :
    ∀ total : ℚ, noRounding a total txs = true →
      txs.foldl (balanceStep a) (Float32.finite total) =
        Float32.finite (total + (receivedTotal txs a - sentTotal txs a)) := by
  induction txs with
  | nil => intro total _; simp [receivedTotal, sentTotal]
  | cons t ts ih =>
    intro total h
    unfold noRounding at h
    simp only [Bool.and_eq_true] at h
    obtain ⟨⟨h1, h2⟩, h3⟩ := h
    have hr : a = t.recipientBlockchainAddress →
        roundFloat32 (total + t.value) = Float32.finite (total + t.value) := by
      intro e
      rw [if_pos e] at h1
      exact of_decide_eq_true h1
    have hs : a = t.senderBlockchainAddress →
        roundFloat32 ((if a = t.recipientBlockchainAddress then total + t.value else total) -
            t.value) =
          Float32.finite ((if a = t.recipientBlockchainAddress then total + t.value else total) -
            t.value) := by
      intro e
      rw [if_pos e] at h2
      exact of_decide_eq_true h2
    rw [List.foldl_cons, balanceStep_exact a total t hr hs, ih _ h3, exactStep_eq,
      receivedTotal_cons, sentTotal_cons]
    congr 1
    ring

/-- Where nothing rounds, `CalculateTotalAmount` is the exact net amount. -/
theorem CalculateTotalAmount_exact (bc : Blockchain) (a : String)
    (h : noRounding a 0 (sealedTransactions bc) = true) :
    CalculateTotalAmount bc a =
      Float32.finite (receivedTotal (sealedTransactions bc) a -
        sentTotal (sealedTransactions bc) a) := by
  rw [CalculateTotalAmount_eq_foldl, foldl_balanceStep_exact a _ 0 h, zero_add]

theorem balanceStep_not_named (a : String) (total : Float32) (t : Transaction)
    (h : ¬ (t.senderBlockchainAddress = a ∨ t.recipientBlockchainAddress = a)) :
    balanceStep a total t = total := by
  unfold balanceStep
  have h1 : ¬ a = t.recipientBlockchainAddress := fun e => h (Or.inr e.symm)
  have h2 : ¬ a = t.senderBlockchainAddress := fun e => h (Or.inl e.symm)
  simp only [if_neg h1, if_neg h2]

theorem foldl_balanceStep_filter (a : String) (txs : List Transaction) :
    ∀ total : Float32,
      txs.foldl (balanceStep a) total =
        (txs.filter fun t =>
          decide (t.senderBlockchainAddress = a ∨ t.recipientBlockchainAddress = a)).foldl
          (balanceStep a) total := by
  induction txs with
  | nil => intro total; rfl
  | cons t ts ih =>
    intro total
    by_cases h : t.senderBlockchainAddress = a ∨ t.recipientBlockchainAddress = a
    · rw [List.filter_cons_of_pos (by simpa using h), List.foldl_cons, List.foldl_cons, ih]
    · rw [List.filter_cons_of_neg (by simpa using h), List.foldl_cons,
        balanceStep_not_named a total t h, ih]

theorem roundFloat32_one : roundFloat32 1 = Float32.finite 1 := by decide

theorem roundFloat32_two : roundFloat32 2 = Float32.finite 2 := by decide

theorem roundFloat32_five : roundFloat32 5 = Float32.finite 5 := by decide

theorem roundFloat32_neg_five : roundFloat32 (-5) = Float32.finite (-5) := by decide

theorem roundFloat32_hundred : roundFloat32 100 = Float32.finite 100 := by decide

theorem roundFloat32_two_pow_24 : roundFloat32 16777216 = Float32.finite 16777216 := by decide

theorem roundFloat32_neg_two_pow_24 :
    roundFloat32 (-16777216) = Float32.finite (-16777216) := by decide

/-- The sum `2 ^ 24 + 1` is not a `float32`: it rounds to `2 ^ 24`. -/
theorem roundFloat32_two_pow_24_succ : roundFloat32 16777217 = Float32.finite 16777216 := by
  decide

/-- The exact sum of the `float32` values `0.1` and `0.2`, which is
`40265319 / 134217728`, rounds to `40265320 / 134217728`. -/
theorem roundRatio_tenth_plus_fifth :
    roundRatio false 40265319 134217728 = Float32.finite (mkRat 40265320 134217728) := by
  decide

set_option maxRecDepth 1024 in
theorem roundFloat32_zero : roundFloat32 0 = Float32.finite 0 := by decide

theorem sealedTransactions_sampleMined :
    sealedTransactions sampleMined =
      [NewTransaction "A" "B" 5, NewTransaction MINING_SENDER "miner" MINING_REWARD] := by
  decide

theorem sealedTransactions_selfMinedLedger :
    sealedTransactions selfMinedLedger =
      [NewTransaction "A" "B" 5, NewTransaction MINING_SENDER MINING_SENDER MINING_REWARD] := by
  decide

theorem noRounding_sampleMined_miner :
    noRounding "miner" 0 (sealedTransactions sampleMined) = true := by
  rw [sealedTransactions_sampleMined]
  simp [noRounding, exactStep, NewTransaction, MINING_SENDER, MINING_REWARD, roundFloat32_one]

theorem selfMined_balance :
    CalculateTotalAmount selfMinedLedger MINING_SENDER = Float32.finite 0 := by
  rw [CalculateTotalAmount_eq_foldl, sealedTransactions_selfMinedLedger]
  simp [balanceStep, NewTransaction, MINING_SENDER, MINING_REWARD, Float32.add, Float32.sub,
    roundFloat32_one, roundFloat32_zero]

theorem noRounding_selfMined :
    noRounding MINING_SENDER 0 (sealedTransactions selfMinedLedger) = true := by
  rw [sealedTransactions_selfMinedLedger]
  simp [noRounding, exactStep, NewTransaction, MINING_SENDER, MINING_REWARD, roundFloat32_one,
    roundFloat32_zero]

/-- C10 (amended): taking the values as exact numbers, that is when no `+=` and
no `-=` of the `float32` accumulation rounds, `CalculateTotalAmount(a)` is the sum
of the values of the transactions in the blocks of the chain whose recipient is
`a` minus the sum of the values of those whose sender is `a`; the pool plays no
part. For an address `a` other than `MINING_SENDER`, if every transaction of
the chain that names `a` is a reward transaction to `a`, the result is
`MINING_REWARD` times the number of those; and if the transactions naming `"B"`
are `A -> B 5` and `B -> C 3`, the balance of `"B"` is `2`. -/
theorem CalculateTotalAmount_net_of_sealed (bc : Blockchain) (a : String) :
    (noRounding a 0 (sealedTransactions bc) = true →
      CalculateTotalAmount bc a =
        Float32.finite (receivedTotal (sealedTransactions bc) a -
          sentTotal (sealedTransactions bc) a)) ∧
    (∀ pool : TxSlice,
      CalculateTotalAmount { bc with transactionPool := pool } a = CalculateTotalAmount bc a) ∧
    (a ≠ MINING_SENDER →
      (∀ t ∈ sealedTransactions bc,
        (t.senderBlockchainAddress = a ∨ t.recipientBlockchainAddress = a) → t = rewardTo a) →
      noRounding a 0 (sealedTransactions bc) = true →
      CalculateTotalAmount bc a =
        Float32.finite (MINING_REWARD * ((sealedTransactions bc).count (rewardTo a) : ℚ))) ∧
    (((sealedTransactions bc).filter fun t =>
        decide (t.senderBlockchainAddress = "B" ∨ t.recipientBlockchainAddress = "B")) =
        [NewTransaction "A" "B" 5, NewTransaction "B" "C" 3] →
      CalculateTotalAmount bc "B" = Float32.finite 2) := by
  refine ⟨CalculateTotalAmount_exact bc a, fun _ => rfl, ?_, ?_⟩
  · intro ha h hexact
    rw [CalculateTotalAmount_exact bc a hexact, net_reward_only a ha _ h]
  · intro h
    rw [CalculateTotalAmount_eq_foldl, foldl_balanceStep_filter, h]
    simp [balanceStep, NewTransaction, Float32.add, Float32.sub, roundFloat32_five]
    norm_num [roundFloat32_two]

/-- Witness for C10 (amended): the miner of the sample ledger holds one reward,
and `"B"` holds `2` in the ledger with the two transfers. -/
theorem CalculateTotalAmount_net_of_sealed_witness :
    (sealedTransactions sampleMined).count (rewardTo "miner") = 1 ∧
    CalculateTotalAmount sampleMined "miner" =
      Float32.finite
        (MINING_REWARD * ((sealedTransactions sampleMined).count (rewardTo "miner") : ℚ)) ∧
    CalculateTotalAmount transferLedger "B" = Float32.finite 2 :=
  ⟨by decide,
    (CalculateTotalAmount_net_of_sealed sampleMined "miner").2.2.1 (by decide) (by decide)
      noRounding_sampleMined_miner,
    (CalculateTotalAmount_net_of_sealed transferLedger "B").2.2.2 (by decide)⟩

/-- Counterexample for C10 as stated: on a ledger whose own address is
`MINING_SENDER`, one transfer `A -> B 5` is mined. The only transaction of the
chain naming `MINING_SENDER` is then the one reward transaction, paid by
`MINING_SENDER` to `MINING_SENDER`; it is added and subtracted, nothing rounds, and
the balance of `MINING_SENDER` is `0` and not `MINING_REWARD * 1`. -/
theorem reward_to_mining_sender_counterexample :
    Mining sampleCrypto 5 9
      { NewBlockchain sampleCrypto 7 MINING_SENDER 5000 with
        transactionPool := some [NewTransaction "A" "B" 5] } =
      Run.ok (true, selfMinedLedger) ∧
    (∀ t ∈ sealedTransactions selfMinedLedger,
      (t.senderBlockchainAddress = MINING_SENDER ∨
        t.recipientBlockchainAddress = MINING_SENDER) → t = rewardTo MINING_SENDER) ∧
    (sealedTransactions selfMinedLedger).count (rewardTo MINING_SENDER) = 1 ∧
    noRounding MINING_SENDER 0 (sealedTransactions selfMinedLedger) = true ∧
    CalculateTotalAmount selfMinedLedger MINING_SENDER = Float32.finite 0 ∧
    CalculateTotalAmount selfMinedLedger MINING_SENDER ≠
      Float32.finite (MINING_REWARD * ((1 : Nat) : ℚ)) := by
  refine ⟨by decide, by decide, by decide, noRounding_selfMined, selfMined_balance, ?_⟩
  rw [selfMined_balance]
  intro h
  injection h with h
  norm_num [MINING_REWARD] at h


/-! ## Supply -/

/-- C11 (amended): take a ledger whose own address is not `MINING_SENDER`,
reachable from `NewBlockchain` by calls of `Mining`, `k` of which returned `true`,
and by calls of `AddTransaction` whose sender and recipient are not
`MINING_SENDER`; take a finite set `S` of addresses that leaves out
`MINING_SENDER` and contains every other address named in a block; and take the
values as exact numbers, no `+=` or `-=` of `CalculateTotalAmount` rounding for an
address of `S`. Then the chain has `k + 1` blocks, `CalculateTotalAmount` returns
for each address of `S` its exact net amount, and these amounts add up over `S`
to `MINING_REWARD * k`. -/
theorem supply_equals_mining_rewards (c : Crypto) (k : Nat) (bc : Blockchain)
    (h : ReachableVia c
      (fun sender recipient _ => sender ≠ MINING_SENDER ∧ recipient ≠ MINING_SENDER) k bc)
    (haddr : bc.blockchainAddress ≠ MINING_SENDER)
    (S : Finset String) (hS : MINING_SENDER ∉ S)
    (hcover : ∀ t ∈ sealedTransactions bc,
      (t.senderBlockchainAddress ≠ MINING_SENDER → t.senderBlockchainAddress ∈ S) ∧
      (t.recipientBlockchainAddress ≠ MINING_SENDER → t.recipientBlockchainAddress ∈ S))
    (hexact : ∀ a ∈ S, noRounding a 0 (sealedTransactions bc) = true) :
    (∀ a ∈ S, CalculateTotalAmount bc a =
      Float32.finite (receivedTotal (sealedTransactions bc) a -
        sentTotal (sealedTransactions bc) a)) ∧
    Finset.sum S (fun a => receivedTotal (sealedTransactions bc) a -
      sentTotal (sealedTransactions bc) a) = MINING_REWARD * (k : ℚ) ∧
    bc.chain.length = k + 1 := by
  obtain ⟨_, hsum, hlen⟩ := minted_of_reachable c k bc h haddr
  refine ⟨fun a ha => CalculateTotalAmount_exact bc a (hexact a ha), ?_, hlen⟩
  rw [sum_net_eq_minted S hS _ hcover, hsum]

theorem sampleMined_reachable_transfers :
    ReachableVia sampleCrypto
      (fun sender recipient _ => sender ≠ MINING_SENDER ∧ recipient ≠ MINING_SENDER) 1
      sampleMined :=
  ReachableVia.mined 5 9 sampleMined
    (ReachableVia.addTransaction "A" "B" 5 (some ⟨1, 1⟩) (some ⟨some 1, some 1⟩) true
      samplePending (by decide) (ReachableVia.init 7 "miner" 5000) (by decide))
    (by decide)

theorem noRounding_sampleMined :
    ∀ a ∈ ({"A", "B", "miner"} : Finset String),
      noRounding a 0 (sealedTransactions sampleMined) = true := by
  intro a ha
  rw [sealedTransactions_sampleMined]
  simp only [Finset.mem_insert, Finset.mem_singleton] at ha
  rcases ha with rfl | rfl | rfl
  · simp [noRounding, exactStep, NewTransaction, MINING_SENDER, MINING_REWARD,
      roundFloat32_neg_five]
  · simp [noRounding, exactStep, NewTransaction, MINING_SENDER, MINING_REWARD,
      roundFloat32_five]
  · simp [noRounding, exactStep, NewTransaction, MINING_SENDER, MINING_REWARD,
      roundFloat32_one]

/-- Witness for C11 (amended): on the sample ledger with one mined block the
balances of `"A"`, `"B"` and `"miner"` are exact and add up to one reward. -/
theorem supply_equals_mining_rewards_witness :
    (∀ a ∈ ({"A", "B", "miner"} : Finset String), CalculateTotalAmount sampleMined a =
      Float32.finite (receivedTotal (sealedTransactions sampleMined) a -
        sentTotal (sealedTransactions sampleMined) a)) ∧
    Finset.sum ({"A", "B", "miner"} : Finset String)
        (fun a => receivedTotal (sealedTransactions sampleMined) a -
          sentTotal (sealedTransactions sampleMined) a) = MINING_REWARD * ((1 : Nat) : ℚ) ∧
    sampleMined.chain.length = 1 + 1 :=
  supply_equals_mining_rewards sampleCrypto 1 sampleMined sampleMined_reachable_transfers
    (by decide) {"A", "B", "miner"} (by decide) (by decide) noRounding_sampleMined

theorem sealedTransactions_mintMined :
    sealedTransactions mintMined =
      [NewTransaction MINING_SENDER "X" 100,
        NewTransaction MINING_SENDER "miner" MINING_REWARD] := by
  decide

theorem sealedTransactions_burnMined :
    sealedTransactions burnMined =
      [NewTransaction "A" MINING_SENDER 5,
        NewTransaction MINING_SENDER "miner" MINING_REWARD] := by
  decide

theorem sealedTransactions_largeMined :
    sealedTransactions largeMined =
      [NewTransaction "A" "miner" 16777216,
        NewTransaction MINING_SENDER "miner" MINING_REWARD] := by
  decide

theorem mintMined_balance_X : CalculateTotalAmount mintMined "X" = Float32.finite 100 := by
  rw [CalculateTotalAmount_eq_foldl, sealedTransactions_mintMined]
  simp [balanceStep, NewTransaction, MINING_SENDER, MINING_REWARD, Float32.add, Float32.sub,
    roundFloat32_hundred]

theorem mintMined_balance_miner : CalculateTotalAmount mintMined "miner" = Float32.finite 1 := by
  rw [CalculateTotalAmount_eq_foldl, sealedTransactions_mintMined]
  simp [balanceStep, NewTransaction, MINING_SENDER, MINING_REWARD, Float32.add, Float32.sub,
    roundFloat32_one]

theorem burnMined_balance_A : CalculateTotalAmount burnMined "A" = Float32.finite (-5) := by
  rw [CalculateTotalAmount_eq_foldl, sealedTransactions_burnMined]
  simp [balanceStep, NewTransaction, MINING_SENDER, MINING_REWARD, Float32.add, Float32.sub,
    roundFloat32_neg_five]

theorem burnMined_balance_miner : CalculateTotalAmount burnMined "miner" = Float32.finite 1 := by
  rw [CalculateTotalAmount_eq_foldl, sealedTransactions_burnMined]
  simp [balanceStep, NewTransaction, MINING_SENDER, MINING_REWARD, Float32.add, Float32.sub,
    roundFloat32_one]

theorem selfMined_balance_A :
    CalculateTotalAmount selfMinedLedger "A" = Float32.finite (-5) := by
  rw [CalculateTotalAmount_eq_foldl, sealedTransactions_selfMinedLedger]
  simp [balanceStep, NewTransaction, MINING_SENDER, MINING_REWARD, Float32.add, Float32.sub,
    roundFloat32_neg_five]

theorem selfMined_balance_B : CalculateTotalAmount selfMinedLedger "B" = Float32.finite 5 := by
  rw [CalculateTotalAmount_eq_foldl, sealedTransactions_selfMinedLedger]
  simp [balanceStep, NewTransaction, MINING_SENDER, MINING_REWARD, Float32.add, Float32.sub,
    roundFloat32_five]

theorem largeMined_balance_A :
    CalculateTotalAmount largeMined "A" = Float32.finite (-16777216) := by
  rw [CalculateTotalAmount_eq_foldl, sealedTransactions_largeMined]
  simp [balanceStep, NewTransaction, MINING_SENDER, MINING_REWARD, Float32.add, Float32.sub,
    roundFloat32_neg_two_pow_24]

theorem largeMined_balance_miner :
    CalculateTotalAmount largeMined "miner" = Float32.finite 16777216 := by
  rw [CalculateTotalAmount_eq_foldl, sealedTransactions_largeMined]
  simp [balanceStep, NewTransaction, MINING_SENDER, MINING_REWARD, Float32.add, Float32.sub,
    roundFloat32_two_pow_24]
  norm_num [roundFloat32_two_pow_24_succ]


theorem largeMined_reachable :
    ReachableVia sampleCrypto
      (fun sender recipient _ => sender ≠ MINING_SENDER ∧ recipient ≠ MINING_SENDER) 1
      largeMined :=
  ReachableVia.mined 5 9 largeMined
    (ReachableVia.addTransaction "A" "miner" 16777216 (some ⟨1, 1⟩) (some ⟨some 1, some 1⟩)
      true largePending (by decide) (ReachableVia.init 7 "miner" 5000) (by decide))
    (by decide)

/-- Counterexample for C11 as stated, in four ledgers with one block sealed by
`Mining`. (1) After `AddTransaction(MINING_SENDER, "X", 100, nil, nil)` the addresses
other than `MINING_SENDER` named in the chain are `"X"` and `"miner"`, with
balances `100` and `1`: the sum is `101`, not `MINING_REWARD * 1`. (2) After a
transfer `A -> MINING_SENDER 5` the balances of `"A"` and `"miner"` are `-5` and
`1`. (3) On a ledger whose own address is `MINING_SENDER` the balances of `"A"`
and `"B"` are `-5` and `5`. (4) After a transfer `A -> miner 16777216`, which
names `MINING_SENDER` nowhere, the `float32` sum `16777216 + 1` of the miner
rounds to `16777216`, so the balances of `"A"` and `"miner"` are `-16777216` and
`16777216` and add up to `0`. -/
theorem minted_supply_counterexample :
    (AddTransaction sampleCrypto sampleGenesis MINING_SENDER "X" 100 none none =
        Run.ok (true, mintPending) ∧
      Mining sampleCrypto 5 9 mintPending = Run.ok (true, mintMined) ∧
      Reachable sampleCrypto mintMined ∧
      mintMined.chain.length = 1 + 1 ∧
      (∀ t ∈ sealedTransactions mintMined,
        (t.senderBlockchainAddress ≠ MINING_SENDER →
          t.senderBlockchainAddress ∈ ({"X", "miner"} : Finset String)) ∧
        (t.recipientBlockchainAddress ≠ MINING_SENDER →
          t.recipientBlockchainAddress ∈ ({"X", "miner"} : Finset String))) ∧
      CalculateTotalAmount mintMined "X" = Float32.finite 100 ∧
      CalculateTotalAmount mintMined "miner" = Float32.finite 1 ∧
      (100 + 1 : ℚ) ≠ MINING_REWARD * ((1 : Nat) : ℚ)) ∧
    (AddTransaction sampleCrypto sampleGenesis "A" MINING_SENDER 5 (some ⟨1, 1⟩)
        (some ⟨some 1, some 1⟩) = Run.ok (true, burnPending) ∧
      Mining sampleCrypto 5 9 burnPending = Run.ok (true, burnMined) ∧
      CalculateTotalAmount burnMined "A" = Float32.finite (-5) ∧
      CalculateTotalAmount burnMined "miner" = Float32.finite 1 ∧
      (-5 + 1 : ℚ) ≠ MINING_REWARD * ((1 : Nat) : ℚ)) ∧
    (Mining sampleCrypto 5 9
        { NewBlockchain sampleCrypto 7 MINING_SENDER 5000 with
          transactionPool := some [NewTransaction "A" "B" 5] } =
        Run.ok (true, selfMinedLedger) ∧
      CalculateTotalAmount selfMinedLedger "A" = Float32.finite (-5) ∧
      CalculateTotalAmount selfMinedLedger "B" = Float32.finite 5 ∧
      (-5 + 5 : ℚ) ≠ MINING_REWARD * ((1 : Nat) : ℚ)) ∧
    (ReachableVia sampleCrypto
        (fun sender recipient _ => sender ≠ MINING_SENDER ∧ recipient ≠ MINING_SENDER) 1
        largeMined ∧
      largeMined.blockchainAddress ≠ MINING_SENDER ∧
      CalculateTotalAmount largeMined "A" = Float32.finite (-16777216) ∧
      CalculateTotalAmount largeMined "miner" = Float32.finite 16777216 ∧
      (-16777216 + 16777216 : ℚ) ≠ MINING_REWARD * ((1 : Nat) : ℚ)) := by
  refine ⟨⟨by decide, by decide, ?_, by decide, by decide, mintMined_balance_X,
      mintMined_balance_miner, by norm_num [MINING_REWARD]⟩,
    ⟨by decide, by decide, burnMined_balance_A, burnMined_balance_miner,
      by norm_num [MINING_REWARD]⟩,
    ⟨by decide, selfMined_balance_A, selfMined_balance_B, by norm_num [MINING_REWARD]⟩,
    ⟨largeMined_reachable, by decide, largeMined_balance_A, largeMined_balance_miner,
      by norm_num [MINING_REWARD]⟩⟩
  exact Reachable.mining 5 9 true mintMined
    (Reachable.addTransaction MINING_SENDER "X" 100 none none true mintPending
      (Reachable.init 7 "miner" 5000) (by decide))
    (by decide)


end GoBlockchain
